import Mathlib

/-
Verification of the PDF-QA-CHATBOT backend's knowledge-synchronization and
retrieval subsystem: the MongoDB-backed remote chunk store
(`backend/app/rag/mongo_store.py`), the Drive sync engine
(`backend/app/services/drive_sync.py`), the in-memory local store
(`backend/app/rag/vector_store.py`), the API-key pool
(`backend/app/rag/api_key_manager.py`), the completion client
(`backend/app/rag/llm.py`, `backend/llm_client.py`) and the QA agent
(`backend/app/rag/agent.py`).

Strings are modelled as `List Char` (`Str`) so that every operation is a
structural recursion the kernel can evaluate.  External capabilities
(Google Drive listing/download, text extraction, chunking, embedding,
the completion endpoint, FAISS, Atlas vector search scoring) are passed
in as function parameters, mirroring the spec's "consumed capabilities".
-/

/-- Strings of the model: plain character lists, kernel-evaluable. -/
abbrev Str := List Char

/-- Characters removed by python's `str.strip()` with no argument. -/
def isPyWs (c : Char) : Bool :=
  c == ' ' || c == '\t' || c == '\n' || c == '\r' || c == '\x0b' || c == '\x0c'

/-- python `s.strip()`: drop whitespace from both ends. -/
def pyStrip (s : Str) : Str :=
  ((s.dropWhile isPyWs).reverse.dropWhile isPyWs).reverse

/-- python `s.rstrip()`: drop whitespace from the right end. -/
def pyRstrip (s : Str) : Str :=
  (s.reverse.dropWhile isPyWs).reverse

/-- Boolean prefix test on character lists. -/
def isPrefixL : Str → Str → Bool
  | [], _ => true
  | _ :: _, [] => false
  | a :: as, b :: bs => a == b && isPrefixL as bs

/-- python `s.endswith(p)`. -/
def endsWithL (s p : Str) : Bool :=
  isPrefixL p.reverse s.reverse

/-- python `s[:-n]` for `n ≤ len(s)`: drop the last `n` characters. -/
def dropRightL (s : Str) (n : Nat) : Str :=
  s.take (s.length - n)

/-- python `s[-n:]`: the last `n` elements of a list. -/
def lastN (n : Nat) (l : List α) : List α :=
  l.drop (l.length - n)

/-- python `s.replace(pat, repl)` for a nonempty `pat`: replace
non-overlapping occurrences left to right (fuel-driven recursion). -/
def replaceAllFuel (pat repl : Str) : Nat → Str → Str
  | 0, s => s
  | _ + 1, [] => []
  | fuel + 1, c :: rest =>
      if isPrefixL pat (c :: rest) then
        repl ++ replaceAllFuel pat repl fuel ((c :: rest).drop pat.length)
      else
        c :: replaceAllFuel pat repl fuel rest

/-- python `s.replace(pat, repl)`. -/
def replaceAll (s pat repl : Str) : Str :=
  if pat.isEmpty then s else replaceAllFuel pat repl s.length s

/-- Codepoint-wise lexicographic strict order on strings (the order MongoDB
uses to compare string values, e.g. inside `$max`). -/
def strLt : Str → Str → Bool
  | [], [] => false
  | [], _ :: _ => true
  | _ :: _, [] => false
  | a :: as, b :: bs =>
      if a.toNat < b.toNat then true
      else if b.toNat < a.toNat then false
      else strLt as bs

/-- The larger of two strings in `strLt` order. -/
def strMax (a b : Str) : Str := if strLt a b then b else a

/-! ### RemoteStore: `MongoVectorStore` (backend/app/rag/mongo_store.py)

One persisted document per chunk.  The `metadata` dict written by the sync
engine always carries `file_id`, `file_name`, `modified_time`; a document
written with `metadata={}` is modelled as `none`. -/

/-- The per-chunk provenance metadata of remote-sourced chunks. -/
structure ChunkMeta where
  file_id : Str
  file_name : Str
  modified_time : Str
deriving DecidableEq

instance : Inhabited ChunkMeta := ⟨⟨[], [], []⟩⟩

/-- One MongoDB document of the `drive_knowledge` collection: a chunk's
text, its embedding vector and its (possibly empty) metadata. -/
structure MongoDoc where
  text : Str
  embedding : List Int
  metadata : Option ChunkMeta
deriving DecidableEq

/-- `doc["metadata"]["file_id"]` when the metadata dict is nonempty. -/
def docFileId (d : MongoDoc) : Option Str := d.metadata.map (·.file_id)

/-- `doc["metadata"]["modified_time"]` when the metadata dict is nonempty. -/
def docTime (d : MongoDoc) : Option Str := d.metadata.map (·.modified_time)

/-- The message of the `ValueError` raised by both `add_texts` methods. -/
def valueErrorMsg : Str :=
  "Texts and embeddings must have the same length.".data

/-- `MongoVectorStore.add_texts`: checks the length match first and only
then builds and inserts the documents, so the raised `ValueError` leaves
the collection unchanged.  `metadata = none` models the python default
`metadata=None` (every document then stores `{}`). -/
def mongo_add_texts (docs : List MongoDoc) (texts : List Str)
    (embeddings : List (List Int)) (metadata : Option (List ChunkMeta)) :
    Except Str (List MongoDoc) :=
  if texts.length ≠ embeddings.length then
    Except.error valueErrorMsg
  else
    Except.ok (docs ++ (List.range texts.length).map (fun i =>
      { text := texts.getD i [], embedding := embeddings.getD i [],
        metadata := metadata.map (fun ms => ms.getD i default) }))

/-- `MongoVectorStore.delete_by_file_id`:
`delete_many({"metadata.file_id": file_id})`. -/
def delete_by_file_id (docs : List MongoDoc) (fid : Str) : List MongoDoc :=
  docs.filter fun d => decide (docFileId d ≠ some fid)

/-- The `modified_time` values of the documents grouped under `fid`. -/
def timesFor (docs : List MongoDoc) (fid : Str) : List Str :=
  docs.filterMap fun d =>
    match d.metadata with
    | some m => if m.file_id = fid then some m.modified_time else none
    | none => none

/-- `$max` over a group's `modified_time` values (string comparison). -/
def maxTime (ts : List Str) : Str := ts.foldl strMax []

/-- The distinct `metadata.file_id` values present in the collection.
`$group` keys documents without metadata under `null` and the python
callers drop falsy ids (`if res["_id"]`), so `none` and `""` are dropped. -/
def storeFileIds (docs : List MongoDoc) : List Str :=
  ((docs.filterMap docFileId).dedup).filter fun i => decide (i ≠ [])

/-- `MongoVectorStore.get_all_metadata`: the derived file index
`file_id → $max(modified_time)`, the sync engine's record of what has
been processed. -/
def get_all_metadata (docs : List MongoDoc) : List (Str × Str) :=
  (storeFileIds docs).map fun i => (i, maxTime (timesFor docs i))

/-! ### SyncEngine: `DriveSyncService.sync_now`
(backend/app/services/drive_sync.py, lines 125-182)

Credential resolution, listing and download are external; `sync_now` is
modelled from the point where the listing succeeded.  The whole
download → (export-name normalization) → extract_text → chunk_text →
generate_embeddings pipeline is one oracle `pipeline : DriveFile → List
(Str × List Int)`; a failed download, empty text or empty chunk list is
`pipeline f = []` (the code then adds nothing). -/

/-- One file of the Drive listing:
`files(id, name, modifiedTime, mimeType)`. -/
structure DriveFile where
  id : Str
  name : Str
  modifiedTime : Str
  mimeType : Str
deriving DecidableEq

/-- One chunk mutation performed on the RemoteStore during a cycle:
a `delete_by_file_id` call or an `add_texts` call inserting `count`
chunk documents for `fid`. -/
inductive Mutation where
  | del (fid : Str)
  | add (fid : Str) (count : Nat)
deriving DecidableEq

/-- The store contents after a cycle together with the chunk mutations
the cycle performed, in order. -/
structure SyncResult where
  store : List MongoDoc
  muts : List Mutation
deriving DecidableEq

/-- The documents inserted for file `f` from its processed chunks: every
chunk is tagged `{file_id, file_name, modified_time}` of `f`. -/
def mkDocs (f : DriveFile) (cs : List (Str × List Int)) : List MongoDoc :=
  cs.map fun c =>
    { text := c.1, embedding := c.2,
      metadata := some { file_id := f.id, file_name := f.name,
                         modified_time := f.modifiedTime } }

/-- The per-file body of the `for file in files` loop of `sync_now`:
a file absent from `processed_files`, or present with a different
modification token, is dirty; a dirty file already present is deleted
first; its chunks (if any) are then inserted. -/
def sync_file (pipeline : DriveFile → List (Str × List Int))
    (processed : List (Str × Str)) (acc : SyncResult) (f : DriveFile) :
    SyncResult :=
  match processed.lookup f.id with
  | some mt =>
      if mt = f.modifiedTime then acc
      else
        let st1 := delete_by_file_id acc.store f.id
        let cs := pipeline f
        if cs.isEmpty then
          { store := st1, muts := acc.muts ++ [Mutation.del f.id] }
        else
          { store := st1 ++ mkDocs f cs,
            muts := acc.muts ++ [Mutation.del f.id, Mutation.add f.id cs.length] }
  | none =>
      let cs := pipeline f
      if cs.isEmpty then acc
      else
        { store := acc.store ++ mkDocs f cs,
          muts := acc.muts ++ [Mutation.add f.id cs.length] }

/-- One eviction step of the deletion logic of `sync_now`. -/
def evict_file (acc : SyncResult) (fid : Str) : SyncResult :=
  { store := delete_by_file_id acc.store fid,
    muts := acc.muts ++ [Mutation.del fid] }

/-- The ids of the current Drive listing (`current_drive_ids`). -/
def listedIds (files : List DriveFile) : List Str := files.map (·.id)

/-- `DriveSyncService.sync_now` from the successful listing on: load the
existing index once, run the per-file loop against it, then evict every
indexed file id absent from the listing. -/
def sync_now (pipeline : DriveFile → List (Str × List Int))
    (store : List MongoDoc) (files : List DriveFile) : SyncResult :=
  let processed := get_all_metadata store
  let r1 := files.foldl (sync_file pipeline processed) { store := store, muts := [] }
  let toDelete := (processed.map Prod.fst).filter
    fun i => files.all fun f => decide (f.id ≠ i)
  toDelete.foldl evict_file r1

/-- The no-mixed-version invariant: any two documents of the collection
that carry the same `metadata.file_id` carry the same
`metadata.modified_time`. -/
def goodStore (docs : List MongoDoc) : Prop :=
  ∀ d1 ∈ docs, ∀ d2 ∈ docs, docFileId d1 = docFileId d2 → docTime d1 = docTime d2

instance (docs : List MongoDoc) : Decidable (goodStore docs) := by
  unfold goodStore
  infer_instance

/-! ### LocalStore: `VectorStore` (backend/app/rag/vector_store.py)

The FAISS `IndexFlatL2` is a flat list of stored vectors; exact search
ranks every stored vector by squared Euclidean distance, returns the `k`
best indices and pads with `-1` when fewer than `k` vectors are stored,
which the python loop filters out. -/

/-- Squared Euclidean (L2) distance between two vectors. -/
def sqDist (q v : List Int) : Int :=
  ((q.zip v).map fun p => (p.1 - p.2) * (p.1 - p.2)).sum

/-- Stable insertion into a distance-ascending ranking. -/
def insertRanked (x : Nat × Int) : List (Nat × Int) → List (Nat × Int)
  | [] => [x]
  | y :: ys => if x.2 < y.2 then x :: y :: ys else y :: insertRanked x ys

/-- Every stored vector's index paired with its distance to the query,
sorted by ascending distance. -/
def rankAll (vecs : List (List Int)) (q : List Int) : List (Nat × Int) :=
  (((List.range vecs.length).map fun i => (i, sqDist q (vecs.getD i []))).foldr
    insertRanked [])

/-- `faiss.IndexFlatL2.search`'s index row: the `k` nearest stored-vector
positions in ascending-distance order, padded with `-1` up to `k`. -/
def faissTopIdx (vecs : List (List Int)) (q : List Int) (k : Nat) : List Int :=
  let top := ((rankAll vecs q).take k).map fun p => (p.1 : Int)
  top ++ List.replicate (k - top.length) (-1)

/-- The in-process local store: a flat vector index and the parallel
ordered chunk list (index position is the join key). -/
structure VectorStore where
  dimension : Nat
  index : List (List Int)
  chunks : List Str
deriving DecidableEq

/-- `VectorStore.__init__(dimension)`: empty index, empty chunk list. -/
def VectorStore.init (dimension : Nat) : VectorStore :=
  { dimension := dimension, index := [], chunks := [] }

/-- `VectorStore.add_texts`: raises `ValueError` on a length mismatch
before touching any state, else appends the embeddings to the index and
the texts to the chunk list. -/
def VectorStore.add_texts (vs : VectorStore) (texts : List Str)
    (embeddings : List (List Int)) : Except Str VectorStore :=
  if texts.length ≠ embeddings.length then
    Except.error valueErrorMsg
  else
    Except.ok { vs with index := vs.index ++ embeddings,
                        chunks := vs.chunks ++ texts }

/-- `VectorStore.search`: empty result on an empty index; otherwise the
`k` nearest chunks by ascending distance, skipping `-1` padding rows. -/
def VectorStore.search (vs : VectorStore) (q : List Int) (k : Nat) :
    List (Str × Int) :=
  if vs.index.length = 0 then []
  else
    ((faissTopIdx vs.index q k).filter fun i => decide (i ≠ -1)).map
      fun i => (vs.chunks.getD i.toNat [], sqDist q (vs.index.getD i.toNat []))

/-- A mutation of the local store as the web layer performs them: an
`add_texts` call (`upload_pdf`'s ingest loop) or the batch reset
`index.reset(); chunks = []` at the top of `upload_pdf`. -/
inductive LocalOp where
  | add (texts : List Str) (embeddings : List (List Int))
  | reset

/-- Applying one local-store mutation; a raised `ValueError` propagates
out of the mutating call, leaving the store unchanged. -/
def applyLocalOp (vs : VectorStore) : LocalOp → VectorStore
  | LocalOp.add t e =>
      match vs.add_texts t e with
      | Except.ok vs' => vs'
      | Except.error _ => vs
  | LocalOp.reset => { vs with index := [], chunks := [] }

/-! ### KeyPool: `APIKeyManager` (backend/app/rag/api_key_manager.py)

`random.choice` is modelled by an oracle index carried by the strategy;
the chosen key is `keys[pick % len(keys)]`.  The session map is an
association list with overwrite-on-insert, observably equal to the
python dict. -/

/-- The selection strategy of `get_key_for_session`; `random pick`
carries the external random draw. -/
inductive Strategy where
  | round_robin
  | random (pick : Nat)

/-- Overwriting insert into an association map (python dict assignment). -/
def mapInsert (sid k : Str) (mp : List (Str × Str)) : List (Str × Str) :=
  (sid, k) :: mp.filter fun p => decide (p.1 ≠ sid)

/-- The process-wide key-pool state: the configured keys in load order,
the round-robin cursor, the session bindings and the usage/error
counters (`defaultdict(int)` as association lists). -/
structure APIKeyManager where
  keys : List Str
  key_index : Nat
  session_key_map : List (Str × Str)
  key_usage : List (Str × Nat)
  key_errors : List (Str × Nat)
deriving DecidableEq

/-- `APIKeyManager.get_key_for_session`: `None` when no keys are
configured; a bound session keeps its key; an unbound session is bound
to the strategy's pick (round robin advances the cursor); without a
session id the pick is returned unbound. -/
def get_key_for_session (m : APIKeyManager) (session_id : Option Str)
    (strategy : Strategy) : Option Str × APIKeyManager :=
  if m.keys.isEmpty then (none, m)
  else
    match session_id with
    | some sid =>
        match m.session_key_map.lookup sid with
        | some k => (some k, m)
        | none =>
            match strategy with
            | Strategy.random pick =>
                let k := m.keys.getD (pick % m.keys.length) []
                (some k, { m with session_key_map := mapInsert sid k m.session_key_map })
            | Strategy.round_robin =>
                let k := m.keys.getD (m.key_index % m.keys.length) []
                (some k, { m with key_index := m.key_index + 1,
                                  session_key_map := mapInsert sid k m.session_key_map })
    | none =>
        match strategy with
        | Strategy.random pick =>
            (some (m.keys.getD (pick % m.keys.length) []), m)
        | Strategy.round_robin =>
            (some (m.keys.getD (m.key_index % m.keys.length) []),
             { m with key_index := m.key_index + 1 })

/-- `APIKeyManager.get_key_with_fallback`: filter out the excluded keys
(`not exclude_keys or k not in exclude_keys`); if everything is
excluded, fall back to the full pool; keep a session's binding when it
is still available, else rebind to the first available key; without a
binding return the first available key unbound. -/
def get_key_with_fallback (m : APIKeyManager) (session_id : Option Str)
    (exclude_keys : List Str) : Option Str × APIKeyManager :=
  if m.keys.isEmpty then (none, m)
  else
    let avail0 := m.keys.filter fun k =>
      decide (exclude_keys = []) || !(exclude_keys.contains k)
    let available_keys := if avail0.isEmpty then m.keys else avail0
    match session_id with
    | some sid =>
        match m.session_key_map.lookup sid with
        | some assigned_key =>
            if available_keys.contains assigned_key then (some assigned_key, m)
            else
              match available_keys with
              | [] => (none, m)
              | k :: _ =>
                  (some k, { m with session_key_map := mapInsert sid k m.session_key_map })
        | none => (available_keys.head?, m)
    | none => (available_keys.head?, m)

/-- One `get_key_for_session` call of an arbitrary interleaved workload. -/
structure AssignCall where
  session_id : Option Str
  strategy : Strategy

/-- Run a sequence of `get_key_for_session` calls, keeping the state. -/
def runAssigns (m : APIKeyManager) (calls : List AssignCall) : APIKeyManager :=
  calls.foldl (fun m c => (get_key_for_session m c.session_id c.strategy).2) m

/-! ### Completion clients (backend/app/rag/llm.py, backend/llm_client.py) -/

/-- The user-facing configuration error of
`app/rag/llm.py::get_llm_response` when no key is available. -/
def noKeysErrorMsg : Str :=
  "Error: No OpenRouter API keys available. Please configure OPENROUTER_API_KEY or OPENROUTER_API_KEYS in environment.".data

/-- `app/rag/llm.py::get_llm_response` up to the request: fetch the
session's key (round-robin default) and return the configuration error
when none is available; the HTTP call, its failover retry and the
counter updates are behind the `complete` oracle. -/
def get_llm_response (m : APIKeyManager) (complete : Str → Str)
    (prompt : Str) (session_id : Option Str) : Str × APIKeyManager :=
  let r := get_key_for_session m session_id Strategy.round_robin
  match r.1 with
  | none => (noKeysErrorMsg, r.2)
  | some k => (complete k, r.2)

/-- The configuration error of `backend/llm_client.py::get_llm_response`. -/
def llmClientNoKeyMsg : Str :=
  "Error: OPENROUTER_API_KEY not found in environment.".data

/-- `backend/llm_client.py::get_llm_response`: guards on the module-level
`OPENROUTER_API_KEY` (absent or empty is falsy) before any request. -/
def llm_client_get_llm_response (apiKey : Option Str) (complete : Str → Str)
    (prompt : Str) : Str :=
  match apiKey with
  | none => llmClientNoKeyMsg
  | some k => if k.isEmpty then llmClientNoKeyMsg else complete k

/-! ### RetrievalAgent: `QAAgent.ask` (backend/app/rag/agent.py)

The question embedding, the store's search and the completion call are
oracles (`embed`, `search`, `llm`).  The store's search result is a
2-tuple per chunk for the local backend and a 3-tuple (with the metadata
dict) for the MongoDB backend. -/

/-- One retrieved chunk as `ask` unpacks it: a `(text, score)` pair from
the local store or a `(text, score, metadata)` triple from the remote
store. -/
inductive RetrievedChunk where
  | pair (text : Str) (score : Int)
  | triple (text : Str) (score : Int) (metadata : Option ChunkMeta)
deriving DecidableEq

/-- One message of the conversation history. -/
structure ChatMsg where
  role : Str
  content : Str

/-- `meta.get('file_name', 'Unknown File')`. -/
def sourceName (metadata : Option ChunkMeta) : Str :=
  match metadata with
  | some m => m.file_name
  | none => "Unknown File".data

/-- The fixed no-relevant-information response of `ask`. -/
def noInfoMsg : Str :=
  "👋 I'm sorry, but I couldn't find any specific information in the documents to answer that. Could you try rephrasing or asking something else? I'm here to help! 😊".data

/-- The `[Source: ...]`-tagged context block line of one retrieved chunk. -/
def contextPart (c : RetrievedChunk) : Str :=
  match c with
  | RetrievedChunk.pair t _ => "[Source: Unknown]\n".data ++ t
  | RetrievedChunk.triple t _ metadata =>
      "[Source: ".data ++ sourceName metadata ++ "]\n".data ++ t

/-- `sources_set`: the candidate source file names carried by the
retrieved chunks — the `file_name` of each 3-tuple chunk whose name is
not the `'Unknown File'` placeholder, deduplicated (a python set). -/
def candidateSources (chunks : List RetrievedChunk) : List Str :=
  (chunks.filterMap fun c =>
    match c with
    | RetrievedChunk.pair _ _ => none
    | RetrievedChunk.triple _ _ metadata =>
        if sourceName metadata = "Unknown File".data then none
        else some (sourceName metadata)).dedup

/-- The follow-up prompt of `ask` (history present), around the question. -/
def promptHistPrefix : Str :=
  "You are a friendly, enthusiastic, and highly intelligent AI assistant. Your goal is to provide impressive, enjoyable, and helpful insights from the document.\n\nGuidelines:\n- **Tone**: Be warm, engaging, and slightly conversational. Use occasional emojis (like ✨, 🚀, 📚, 💡) to make the response lively!\n- **Be Concise but Impressive**: Explain things clearly but with flair.\n- **Cite Sources**: Always cite the source file for your information using the format **[Source: filename]**.\n- **Structure**: Use clear headers and bullet points for readability.\n- **No Hallucinations**: Answer ONLY based on the provided context.\n- **Formatting**: Use Markdown for headers (#), bold (**), and lists.\n- **Conversation Continuity**: This is a FOLLOW-UP question in an ongoing conversation. You MUST reference the previous conversation messages shown above to understand what the current question is asking about. If the question uses pronouns like \"both\", \"they\", \"these\", \"among\", \"who\", look at the previous conversation to see who/what was being discussed.\n\n**CRITICAL**: This question is part of an ongoing conversation. The question may refer to people, topics, or comparisons mentioned in the previous messages above. You MUST:\n1. Look at the previous conversation to understand what \"both\", \"they\", \"these\", \"among\" refer to\n2. Explicitly reference the previous conversation in your answer (e.g., \"Based on the previous comparison of X and Y...\")\n3. Combine information from BOTH the document context AND the conversation history\n\nCurrent Question: ".data

/-- The tail of the follow-up prompt, after the question. -/
def promptHistSuffix : Str :=
  "\n\nProvide a structured answer that:\n1. **Explicitly references** the previous conversation when relevant\n2. Uses the document context to provide accurate information\n3. Maintains conversation continuity\n4. At the very end, includes a section 'Suggestions:' with exactly 3 short, relevant follow-up questions (maximum 10 words each). Format them as a numbered list (1., 2., 3.).\n\nAnswer:".data

/-- The standard prompt of `ask` (no history), around the question. -/
def promptStdPrefix : Str :=
  "You are a friendly, enthusiastic, and highly intelligent AI assistant. Your goal is to provide impressive, enjoyable, and helpful insights from the document.\n\nGuidelines:\n- **Tone**: Be warm, engaging, and slightly conversational. Use occasional emojis (like ✨, 🚀, 📚, 💡) to make the response lively!\n- **Be Concise but Impressive**: Explain things clearly but with flair.\n- **Cite Sources**: Always cite the source file for your information using the format **[Source: filename]**.\n- **Structure**: Use clear headers and bullet points for readability.\n- **No Hallucinations**: Answer ONLY based on the provided context.\n- **Formatting**: Use Markdown for headers (#), bold (**), and lists.\n\nCurrent Question: ".data

/-- The tail of the standard prompt, after the question. -/
def promptStdSuffix : Str :=
  "\n\nProvide a structured answer. At the very end, include a section 'Suggestions:' with exactly 3 short, relevant follow-up questions (maximum 10 words each). Format them as a numbered list (1., 2., 3.).\n\nAnswer:".data

/-- The trailing-`**` cleanup loop of `ask`
(`while response.endswith("**")`), fuel-driven since each round shortens
the string. -/
def stripTrailingBold : Nat → Str → Str
  | 0, s => s
  | fuel + 1, s =>
      if endsWithL s "**".data then
        stripTrailingBold fuel (pyRstrip (dropRightL s 2))
      else s

/-- The whole response cleanup of `ask`: `strip()`, the trailing-`**`
loop, then the `**.` repair. -/
def postClean (s : Str) : Str :=
  let s1 := pyStrip s
  let s2 := stripTrailingBold s1.length s1
  if endsWithL s2 "**.".data then pyStrip (dropRightL s2 3) ++ ['.'] else s2

/-- One attempted match of `\[Source:\s*(.*?)\]` at the head of the
input: the literal `[Source:`, then greedy whitespace, then a lazy
capture up to the first `]`, which `.` forbids to cross a newline.
Returns the capture and the rest of the input after the match. -/
def tryCite (s : Str) : Option (Str × Str) :=
  if isPrefixL "[Source:".data s then
    let after := (s.drop 8).dropWhile isPyWs
    let cap := after.takeWhile fun c => decide (c ≠ ']')
    if cap.contains '\n' then none
    else if (after.drop cap.length).isEmpty then none
    else some (cap, after.drop (cap.length + 1))
  else none

/-- `re.findall(r'\[Source:\s*(.*?)\]', s)`: every capture, scanning
left to right and resuming after each match. -/
def scanCits : Nat → Str → List Str
  | 0, _ => []
  | _ + 1, [] => []
  | fuel + 1, c :: rest =>
      match tryCite (c :: rest) with
      | some (cap, rest') => cap :: scanCits fuel rest'
      | none => scanCits fuel rest

/-- `clean_cited_sources`: each raw capture with `**` removed and
stripped, keeping only captures that are nonempty and not the literal
`Unknown`. -/
def cleanCited (s : Str) : List Str :=
  ((scanCits s.length s).map fun src =>
    pyStrip (replaceAll src "**".data [])).filter
    fun c => decide (c ≠ [] ∧ c ≠ "Unknown".data)

/-- `final_sources`: the deduplicated cleaned citations
(`list(set(clean_cited_sources))`), falling back to the full candidate
set when the model cited nothing usable. -/
def finalSources (response : Str) (candidates : List Str) : List Str :=
  let fs := (cleanCited response).dedup
  if fs.isEmpty then candidates else fs

/-- `QAAgent.ask`: window the history, embed the question, search the
bound store with `k=5`; on an empty result return the fixed
no-relevant-information response with no sources; otherwise assemble the
context block and prompt, call the completion, clean the response and
extract its sources. -/
def QAAgent.ask (search : List Int → Nat → List RetrievedChunk)
    (llm : Str → Option (List ChatMsg) → Str → Str)
    (embed : Str → List Int) (question : Str)
    (conversation_history : Option (List ChatMsg))
    (max_history_messages : Nat) : Str × List Str :=
  let history := match conversation_history with
    | some h => if h.isEmpty then none else some (lastN max_history_messages h)
    | none => none
  let query_emb := embed question
  let relevant_chunks := search query_emb 5
  if relevant_chunks.isEmpty then (noInfoMsg, [])
  else
    let context := List.intercalate "\n\n---\n\n".data
      (relevant_chunks.map contextPart)
    let prompt := match history with
      | some h =>
          if h.length > 0 then promptHistPrefix ++ question ++ promptHistSuffix
          else promptStdPrefix ++ question ++ promptStdSuffix
      | none => promptStdPrefix ++ question ++ promptStdSuffix
    let response := postClean (llm prompt history context)
    (response, finalSources response (candidateSources relevant_chunks))

/-- The local store's search adapted to `ask`'s chunk shape. -/
def localSearch (vs : VectorStore) : List Int → Nat → List RetrievedChunk :=
  fun q k => (vs.search q k).map fun p => RetrievedChunk.pair p.1 p.2

/-- Sources as the spec sentence reads: the deduplicated set of source
tags explicitly cited in the answer text (every regex capture), falling
back to the candidate set when none was cited.  Stated for comparison
with `finalSources`, which the code computes. -/
def specSources (response : Str) (candidates : List Str) : List Str :=
  let cited := ((scanCits response.length response).dedup)
  if cited.isEmpty then candidates else cited

/-! ## Generic helper lemmas -/

/-- `List.contains` agrees with membership for lawful `BEq`. -/
theorem contains_iff {α : Type} [BEq α] [LawfulBEq α] {l : List α} {a : α} :
    l.contains a = true ↔ a ∈ l :=
  List.elem_iff

/-- A left fold whose step fixes every accumulator is the identity. -/
theorem foldl_fixed {α β : Type} {step : β → α → β} {l : List α} {acc : β}
    (h : ∀ x ∈ l, ∀ a, step a x = a) : l.foldl step acc = acc := by
  induction l generalizing acc with
  | nil => rfl
  | cons x xs ih =>
      simp only [List.foldl_cons, h x (by simp)]
      exact ih fun y hy => h y (by simp [hy])

/-- Looking a present key up in a graph-shaped association list. -/
theorem lookup_graph {l : List Str} {g : Str → Str} {i : Str} (h : i ∈ l) :
    ((l.map fun j => (j, g j)).lookup i) = some (g i) := by
  induction l with
  | nil => cases h
  | cons j js ih =>
      by_cases hj : i = j
      · subst hj; simp [List.lookup]
      · rcases List.mem_cons.mp h with he | ht
        · exact absurd he hj
        · simpa [List.lookup, beq_eq_false_iff_ne.mpr hj] using ih ht

/-- Looking an absent key up in a graph-shaped association list. -/
theorem lookup_graph_none {l : List Str} {g : Str → Str} {i : Str} (h : i ∉ l) :
    ((l.map fun j => (j, g j)).lookup i) = none := by
  induction l with
  | nil => rfl
  | cons j js ih =>
      have hj : i ≠ j := fun e => h (e ▸ List.mem_cons_self j js)
      simpa [List.lookup, beq_eq_false_iff_ne.mpr hj] using
        ih fun hi => h (List.mem_cons_of_mem j hi)

/-! ## C7: LocalStore join invariant -/

/-- Membership through one ranked insertion. -/
theorem mem_insertRanked {x y : Nat × Int} {l : List (Nat × Int)} :
    x ∈ insertRanked y l ↔ x = y ∨ x ∈ l := by
  induction l with
  | nil => simp [insertRanked]
  | cons z zs ih =>
      simp only [insertRanked]
      split
      · simp
      · simp [ih]; tauto

/-- Membership through the full ranking fold. -/
theorem mem_foldr_insertRanked {l init : List (Nat × Int)} {x : Nat × Int} :
    x ∈ l.foldr insertRanked init ↔ x ∈ l ∨ x ∈ init := by
  induction l with
  | nil => simp
  | cons y ys ih => simp [List.foldr_cons, mem_insertRanked, ih]; tauto

/-- Every ranked entry indexes a stored vector. -/
theorem mem_rankAll_lt {vecs : List (List Int)} {q : List Int} {p : Nat × Int}
    (h : p ∈ rankAll vecs q) : p.1 < vecs.length := by
  unfold rankAll at h
  rcases (mem_foldr_insertRanked.mp h) with h | h
  · rcases List.mem_map.mp h with ⟨i, hi, rfl⟩
    exact List.mem_range.mp hi
  · cases h

/-- Every non-padding index returned by the FAISS search addresses a
stored vector. -/
theorem faissTopIdx_valid {vecs : List (List Int)} {q : List Int} {k : Nat}
    {i : Int} (h : i ∈ faissTopIdx vecs q k) (hne : i ≠ -1) :
    i.toNat < vecs.length := by
  unfold faissTopIdx at h
  rcases List.mem_append.mp h with h | h
  · rcases List.mem_map.mp h with ⟨p, hp, rfl⟩
    have := mem_rankAll_lt (List.take_subset k _ hp)
    simpa using this
  · exact absurd (List.mem_replicate.mp h).2 hne

/-- The join invariant is preserved by every local-store mutation. -/
theorem applyLocalOp_join {vs : VectorStore}
    (h : vs.index.length = vs.chunks.length) (op : LocalOp) :
    (applyLocalOp vs op).index.length = (applyLocalOp vs op).chunks.length := by
  cases op with
  | add t e =>
      by_cases hlen : t.length = e.length
      · simp [applyLocalOp, VectorStore.add_texts, hlen, h]
      · simp [applyLocalOp, VectorStore.add_texts, hlen, h]
  | reset => simp [applyLocalOp]

/-- The join invariant after an arbitrary operation sequence. -/
theorem foldl_join {ops : List LocalOp} {vs : VectorStore}
    (h : vs.index.length = vs.chunks.length) :
    (ops.foldl applyLocalOp vs).index.length =
      (ops.foldl applyLocalOp vs).chunks.length := by
  induction ops generalizing vs with
  | nil => exact h
  | cons op ops ih => exact ih (applyLocalOp_join h op)

/-- C7. For the LocalStore, after every finite sequence of `add_texts`
and reset operations from a freshly constructed store, the number of
stored text chunks equals the number of vectors in the flat index, and
every non-padding index returned by the search addresses a valid
position in the chunk list, so `search` never returns an
index-out-of-range text. -/
theorem local_join_invariant (ops : List LocalOp) (dim : Nat) :
    (ops.foldl applyLocalOp (VectorStore.init dim)).index.length =
      (ops.foldl applyLocalOp (VectorStore.init dim)).chunks.length ∧
    ∀ q k i, i ∈ faissTopIdx (ops.foldl applyLocalOp (VectorStore.init dim)).index q k →
      i ≠ -1 → i.toNat < (ops.foldl applyLocalOp (VectorStore.init dim)).chunks.length := by
  have hj : (ops.foldl applyLocalOp (VectorStore.init dim)).index.length =
      (ops.foldl applyLocalOp (VectorStore.init dim)).chunks.length :=
    foldl_join (by simp [VectorStore.init])
  exact ⟨hj, fun q k i hi hne => hj ▸ faissTopIdx_valid hi hne⟩

/-- Witness for C7 at a concrete operation sequence: one added chunk,
a query returning index `0`, which is in range. -/
theorem local_join_invariant_witness :
    (0 : Int) ∈ faissTopIdx ([LocalOp.add ["a".data] [[1, 2]], LocalOp.reset,
        LocalOp.add ["b".data, "c".data] [[1, 2], [3, 4]]].foldl applyLocalOp
        (VectorStore.init 2)).index [1, 1] 5 ∧
    (0 : Int) ≠ -1 ∧
    (0 : Int).toNat < ([LocalOp.add ["a".data] [[1, 2]], LocalOp.reset,
        LocalOp.add ["b".data, "c".data] [[1, 2], [3, 4]]].foldl applyLocalOp
        (VectorStore.init 2)).chunks.length :=
  ⟨by decide, by decide,
    (local_join_invariant [LocalOp.add ["a".data] [[1, 2]], LocalOp.reset,
      LocalOp.add ["b".data, "c".data] [[1, 2], [3, 4]]] 2).2 [1, 1] 5 0
      (by decide) (by decide)⟩

/-! ## C10: length-mismatch rejection in both backends -/

/-- C10. For both store backends, `add_texts` with a texts list and an
embeddings batch of different lengths raises the `ValueError` before any
mutation, so the store state is unchanged: the local wrapper returns the
untouched store, and the MongoDB variant errors before building or
inserting any document. -/
theorem add_texts_length_mismatch (vs : VectorStore) (docs : List MongoDoc)
    (texts : List Str) (embeddings : List (List Int))
    (metadata : Option (List ChunkMeta))
    (h : texts.length ≠ embeddings.length) :
    vs.add_texts texts embeddings = Except.error valueErrorMsg ∧
    mongo_add_texts docs texts embeddings metadata = Except.error valueErrorMsg ∧
    applyLocalOp vs (LocalOp.add texts embeddings) = vs := by
  refine ⟨by simp [VectorStore.add_texts, h], by simp [mongo_add_texts, h], ?_⟩
  simp [applyLocalOp, VectorStore.add_texts, h]

/-- Witness for C10 at a concrete mismatched call. -/
theorem add_texts_length_mismatch_witness :
    (["a".data].length ≠ ([] : List (List Int)).length) ∧
    (VectorStore.init 2).add_texts ["a".data] [] = Except.error valueErrorMsg :=
  ⟨by decide,
    (add_texts_length_mismatch (VectorStore.init 2) [] ["a".data] [] none
      (by decide)).1⟩

/-! ## C6: zero configured credentials -/

/-- C6. With zero configured keys, `get_key_for_session` returns `None`
for every session id and strategy rather than raising, and both
completion clients surface the missing configuration as a user-facing
error message instead of crashing. -/
theorem zero_keys_degraded (m : APIKeyManager) (h : m.keys = []) :
    (∀ session_id strategy, (get_key_for_session m session_id strategy).1 = none) ∧
    (∀ complete prompt session_id,
      (get_llm_response m complete prompt session_id).1 = noKeysErrorMsg) ∧
    (∀ complete prompt,
      llm_client_get_llm_response none complete prompt = llmClientNoKeyMsg) := by
  have he : m.keys.isEmpty = true := List.isEmpty_iff.mpr h
  refine ⟨fun s st => by simp [get_key_for_session, he], fun c p s => ?_,
    fun c p => rfl⟩
  simp [get_llm_response, get_key_for_session, he]

/-- Witness for C6 at the empty key pool. -/
theorem zero_keys_degraded_witness :
    (⟨[], 0, [], [], []⟩ : APIKeyManager).keys = [] ∧
    (get_key_for_session ⟨[], 0, [], [], []⟩ (some "s".data)
      Strategy.round_robin).1 = none :=
  ⟨rfl, (zero_keys_degraded ⟨[], 0, [], [], []⟩ rfl).1 (some "s".data)
    Strategy.round_robin⟩

/-! ## C4: sticky sessions -/

/-- Association lookup walks past a head with a different key. -/
theorem lookup_cons_ne {a k : Str} {v : Str} {l : List (Str × Str)}
    (h : a ≠ k) : List.lookup a ((k, v) :: l) = List.lookup a l := by
  simp [List.lookup, beq_eq_false_iff_ne.mpr h]

/-- Association lookup stops at a head with the key it seeks. -/
theorem lookup_cons_self {a : Str} {v : Str} {l : List (Str × Str)} :
    List.lookup a ((a, v) :: l) = some v := by
  simp [List.lookup]

/-- Key lookup ignores a filter that only removes other keys. -/
theorem lookup_filter_ne {sid sid' : Str} (h : sid ≠ sid')
    (mp : List (Str × Str)) :
    ((mp.filter fun p => decide (p.1 ≠ sid')).lookup sid) = mp.lookup sid := by
  induction mp with
  | nil => rfl
  | cons p ps ih =>
      rcases p with ⟨a, b⟩
      rcases eq_or_ne a sid' with hp | hp
      · subst hp
        have h1 : ((a, b) :: ps).filter (fun p => decide (p.1 ≠ a)) =
            ps.filter (fun p => decide (p.1 ≠ a)) := by
          simp [List.filter_cons]
        rw [h1, ih]
        exact (lookup_cons_ne h).symm
      · have h1 : ((a, b) :: ps).filter (fun p => decide (p.1 ≠ sid')) =
            (a, b) :: ps.filter (fun p => decide (p.1 ≠ sid')) := by
          simp [List.filter_cons, hp]
        rw [h1]
        rcases eq_or_ne sid a with hsp | hsp
        · subst hsp; rw [lookup_cons_self, lookup_cons_self]
        · rw [lookup_cons_ne hsp, lookup_cons_ne hsp, ih]

/-- Inserting a binding for another session preserves a lookup. -/
theorem lookup_mapInsert_ne {sid sid' k : Str} (h : sid ≠ sid')
    (mp : List (Str × Str)) :
    ((mapInsert sid' k mp).lookup sid) = mp.lookup sid := by
  unfold mapInsert
  rw [lookup_cons_ne h]
  exact lookup_filter_ne h mp

/-- Inserting a binding makes its own lookup succeed. -/
theorem lookup_mapInsert_self {sid k : Str} (mp : List (Str × Str)) :
    ((mapInsert sid k mp).lookup sid) = some k := by
  simp [mapInsert, List.lookup]

/-- `get_key_for_session` never changes the configured key list. -/
theorem get_key_keys (m : APIKeyManager) (s : Option Str) (st : Strategy) :
    ((get_key_for_session m s st).2).keys = m.keys := by
  unfold get_key_for_session
  rcases s with _ | sid
  · cases st <;> split <;> rfl
  · by_cases he : m.keys.isEmpty
    · simp [he]
    · cases hl : m.session_key_map.lookup sid <;> cases st <;> simp [he, hl]

/-- `get_key_for_session` never drops or rewrites an existing binding. -/
theorem get_key_preserves_binding {m : APIKeyManager} {sid k : Str}
    (h : m.session_key_map.lookup sid = some k) (s : Option Str) (st : Strategy) :
    ((get_key_for_session m s st).2).session_key_map.lookup sid = some k := by
  unfold get_key_for_session
  rcases s with _ | sid'
  · cases st <;> split <;> exact h
  · by_cases he : m.keys.isEmpty
    · simpa [he] using h
    · by_cases hs : sid' = sid
      · subst hs
        simp [he, h]
      · cases hl : m.session_key_map.lookup sid' <;> cases st <;>
          simp [he, hl, lookup_mapInsert_ne (fun e => hs e.symm), h]

/-- A call workload never changes the configured key list. -/
theorem runAssigns_keys (calls : List AssignCall) (m : APIKeyManager) :
    (runAssigns m calls).keys = m.keys := by
  induction calls generalizing m with
  | nil => rfl
  | cons c cs ih =>
      simpa [runAssigns, List.foldl_cons, ih] using
        (ih _).trans (get_key_keys m c.session_id c.strategy)

/-- A call workload never drops or rewrites an existing binding. -/
theorem runAssigns_preserves_binding {sid k : Str} (calls : List AssignCall)
    (m : APIKeyManager) (h : m.session_key_map.lookup sid = some k) :
    (runAssigns m calls).session_key_map.lookup sid = some k := by
  induction calls generalizing m with
  | nil => exact h
  | cons c cs ih =>
      exact ih _ (get_key_preserves_binding h c.session_id c.strategy)

/-- A bound session with a nonempty pool gets its binding back, with the
state untouched. -/
theorem get_key_of_bound {m : APIKeyManager} {sid k : Str} (st : Strategy)
    (hne : ¬m.keys.isEmpty = true)
    (hb : m.session_key_map.lookup sid = some k) :
    get_key_for_session m (some sid) st = (some k, m) := by
  unfold get_key_for_session
  simp [hne, hb]

/-- After the first assignment to `sid`, the binding records the result. -/
theorem get_key_binds (m : APIKeyManager) (sid : Str) (st : Strategy)
    (hne : ¬m.keys.isEmpty = true) :
    ∃ k, (get_key_for_session m (some sid) st).1 = some k ∧
      ((get_key_for_session m (some sid) st).2).session_key_map.lookup sid = some k := by
  unfold get_key_for_session
  cases hl : m.session_key_map.lookup sid <;> cases st <;>
    simp [hne, hl, lookup_mapInsert_self]

/-- C4. For every fixed session id, every `get_key_for_session` call
after the first — with any number of interleaved assignment calls for
arbitrary sessions and any mixture of selection strategies, and no
failover in between — returns the credential the first call returned for
that session. -/
theorem sticky_session (m : APIKeyManager) (sid : Str) (st1 st2 : Strategy)
    (calls : List AssignCall) :
    (get_key_for_session
      (runAssigns (get_key_for_session m (some sid) st1).2 calls)
      (some sid) st2).1 = (get_key_for_session m (some sid) st1).1 := by
  by_cases he : m.keys.isEmpty = true
  · have h1 : (get_key_for_session m (some sid) st1) = (none, m) := by
      unfold get_key_for_session; simp [he]
    rw [h1]
    have he2 : (runAssigns m calls).keys.isEmpty = true := by
      rw [runAssigns_keys]; exact he
    show (get_key_for_session (runAssigns m calls) (some sid) st2).1 = none
    unfold get_key_for_session
    simp [he2]
  · obtain ⟨k, hk1, hk2⟩ := get_key_binds m sid st1 he
    have hb := runAssigns_preserves_binding calls _ hk2
    have hne2 : ¬(runAssigns (get_key_for_session m (some sid) st1).2
        calls).keys.isEmpty = true := by
      rw [runAssigns_keys, get_key_keys]; exact he
    rw [hk1, get_key_of_bound st2 hne2 hb]

/-! ## C5: failover correctness -/

/-- The head of a successful `head?` is a member. -/
theorem head?_mem {α : Type} {l : List α} {a : α} (h : l.head? = some a) :
    a ∈ l := by
  cases l with
  | nil => cases h
  | cons b t => cases h; exact List.mem_cons_self _ _

/-- `get_key_with_fallback` without a session id, written without lets. -/
theorem gkwf_none_eq (m : APIKeyManager) (excl : List Str) :
    get_key_with_fallback m none excl =
      (if m.keys.isEmpty = true then (none, m)
       else ((if (m.keys.filter fun k =>
            decide (excl = []) || !(excl.contains k)).isEmpty = true
          then m.keys
          else m.keys.filter fun k =>
            decide (excl = []) || !(excl.contains k)).head?, m)) := rfl

/-- `get_key_with_fallback` with a session id, written without lets. -/
theorem gkwf_some_eq (m : APIKeyManager) (sid : Str) (excl : List Str) :
    get_key_with_fallback m (some sid) excl =
      (if m.keys.isEmpty = true then (none, m)
       else
        match m.session_key_map.lookup sid with
        | some assigned_key =>
            if (if (m.keys.filter fun k =>
                  decide (excl = []) || !(excl.contains k)).isEmpty = true
                then m.keys
                else m.keys.filter fun k =>
                  decide (excl = []) || !(excl.contains k)).contains assigned_key
                = true
            then (some assigned_key, m)
            else
              match (if (m.keys.filter fun k =>
                  decide (excl = []) || !(excl.contains k)).isEmpty = true
                then m.keys
                else m.keys.filter fun k =>
                  decide (excl = []) || !(excl.contains k)) with
              | [] => (none, m)
              | k :: _ =>
                  (some k,
                    { m with session_key_map := mapInsert sid k m.session_key_map })
        | none =>
            ((if (m.keys.filter fun k =>
                decide (excl = []) || !(excl.contains k)).isEmpty = true
              then m.keys
              else m.keys.filter fun k =>
                decide (excl = []) || !(excl.contains k)).head?, m)) := rfl

/-- Whatever `get_key_with_fallback` returns comes from the available
set: the exclusion-filtered pool, or the full pool when that filter
left nothing. -/
theorem fallback_mem {m : APIKeyManager} {s : Option Str} {excl : List Str}
    {r : Str} (h : (get_key_with_fallback m s excl).1 = some r) :
    r ∈ (if (m.keys.filter fun k =>
          decide (excl = []) || !(excl.contains k)).isEmpty = true
        then m.keys
        else m.keys.filter fun k =>
          decide (excl = []) || !(excl.contains k)) := by
  by_cases he : m.keys.isEmpty = true
  · rcases s with _ | sid
    · rw [gkwf_none_eq, if_pos he] at h; cases h
    · rw [gkwf_some_eq, if_pos he] at h; cases h
  · rcases s with _ | sid
    · rw [gkwf_none_eq, if_neg he] at h
      exact head?_mem h
    · rw [gkwf_some_eq, if_neg he] at h
      cases hl : m.session_key_map.lookup sid with
      | none =>
          rw [hl] at h
          exact head?_mem h
      | some ak =>
          rw [hl] at h
          by_cases hc : (if (m.keys.filter fun k =>
              decide (excl = []) || !(excl.contains k)).isEmpty = true
              then m.keys
              else m.keys.filter fun k =>
                decide (excl = []) || !(excl.contains k)).contains ak = true
          · simp only [hc, if_true] at h
            cases h
            exact contains_iff.mp hc
          · simp only [hc, if_false] at h
            cases hAV : (if (m.keys.filter fun k =>
                decide (excl = []) || !(excl.contains k)).isEmpty = true
                then m.keys
                else m.keys.filter fun k =>
                  decide (excl = []) || !(excl.contains k)) with
            | nil => rw [hAV] at h; cases h
            | cons a t =>
                rw [hAV] at h
                simp only [] at h
                cases h
                exact List.mem_cons_self _ _

/-- C5. With a pool of at least two credentials: `get_key_with_fallback`
never returns an excluded credential while a non-excluded one exists in
the pool; a session binding that is in the pool and not excluded is kept
with the state unchanged; an excluded binding is replaced by the first
non-excluded pool credential in configured order; and when every pool
credential is excluded the call falls back to the full unfiltered pool
and still returns a pool credential rather than none. -/
theorem failover_correct (m : APIKeyManager) (sid ak : Str)
    (excl : List Str) (hlen : 2 ≤ m.keys.length) :
    (∀ s r, (get_key_with_fallback m s excl).1 = some r →
      (∃ k ∈ m.keys, k ∉ excl) → r ∉ excl) ∧
    (m.session_key_map.lookup sid = some ak → ak ∈ m.keys → ak ∉ excl →
      get_key_with_fallback m (some sid) excl = (some ak, m)) ∧
    (m.session_key_map.lookup sid = some ak → ak ∈ excl →
      (∃ k ∈ m.keys, k ∉ excl) →
      (get_key_with_fallback m (some sid) excl).1 =
        (m.keys.filter fun k => !(excl.contains k)).head?) ∧
    ((∀ k ∈ m.keys, k ∈ excl) →
      ∃ r, (get_key_with_fallback m (some sid) excl).1 = some r ∧
        r ∈ m.keys) := by
  have hkne : m.keys ≠ [] := by
    intro e; rw [e] at hlen; exact absurd hlen (by decide)
  have hne : ¬m.keys.isEmpty = true := fun hh => hkne (List.isEmpty_iff.mp hh)
  refine ⟨?_, ?_, ?_, ?_⟩
  · -- never an excluded credential while a non-excluded one exists
    intro s r h hex
    by_cases hexcl : excl = []
    · subst hexcl; exact List.not_mem_nil r
    · obtain ⟨k0, hk0, hk0e⟩ := hex
      have hk0A : k0 ∈ m.keys.filter fun k =>
          decide (excl = []) || !(excl.contains k) := by
        refine List.mem_filter.mpr ⟨hk0, ?_⟩
        rcases hcc : excl.contains k0 with _ | _
        · simp
        · exact absurd (contains_iff.mp hcc) hk0e
      have hA0 : (m.keys.filter fun k =>
          decide (excl = []) || !(excl.contains k)).isEmpty = false := by
        rcases hcc : (m.keys.filter fun k =>
            decide (excl = []) || !(excl.contains k)).isEmpty with _ | _
        · rfl
        · rw [List.isEmpty_iff.mp hcc] at hk0A; cases hk0A
      have hr := fallback_mem h
      rw [hA0] at hr
      simp only [Bool.false_eq_true, if_false] at hr
      have hcond := (List.mem_filter.mp hr).2
      rw [decide_eq_false hexcl] at hcond
      simp only [Bool.false_or, Bool.not_eq_true'] at hcond
      intro hmem
      rw [contains_iff.mpr hmem] at hcond
      cases hcond
  · -- a non-excluded binding is kept, state untouched
    intro hb hak hnak
    have hakA : ak ∈ m.keys.filter fun k =>
        decide (excl = []) || !(excl.contains k) := by
      refine List.mem_filter.mpr ⟨hak, ?_⟩
      rcases hcc : excl.contains ak with _ | _
      · simp
      · exact absurd (contains_iff.mp hcc) hnak
    have hcon : (if (m.keys.filter fun k =>
        decide (excl = []) || !(excl.contains k)).isEmpty = true
        then m.keys
        else m.keys.filter fun k =>
          decide (excl = []) || !(excl.contains k)).contains ak = true := by
      split
      · exact contains_iff.mpr hak
      · exact contains_iff.mpr hakA
    rw [gkwf_some_eq, if_neg hne, hb]
    simp only [hcon, if_true]
  · -- an excluded binding is rebound to the first non-excluded credential
    intro hb hak hex
    have hexcl : excl ≠ [] := fun e => by rw [e] at hak; cases hak
    have hfeq : (m.keys.filter fun k =>
        decide (excl = []) || !(excl.contains k)) =
        m.keys.filter fun k => !(excl.contains k) := by
      apply List.filter_congr
      intro a _
      rw [decide_eq_false hexcl, Bool.false_or]
    obtain ⟨k0, hk0, hk0e⟩ := hex
    have hk0A : k0 ∈ m.keys.filter fun k => !(excl.contains k) := by
      refine List.mem_filter.mpr ⟨hk0, ?_⟩
      rcases hcc : excl.contains k0 with _ | _
      · simp
      · exact absurd (contains_iff.mp hcc) hk0e
    have hA0 : (m.keys.filter fun k =>
        decide (excl = []) || !(excl.contains k)).isEmpty = false := by
      rw [hfeq]
      rcases hcc : (m.keys.filter fun k => !(excl.contains k)).isEmpty with _ | _
      · rfl
      · rw [List.isEmpty_iff.mp hcc] at hk0A; cases hk0A
    have hAVeq : (if (m.keys.filter fun k =>
        decide (excl = []) || !(excl.contains k)).isEmpty = true
        then m.keys
        else m.keys.filter fun k =>
          decide (excl = []) || !(excl.contains k)) =
        m.keys.filter fun k => !(excl.contains k) := by
      rw [hA0]
      simp only [Bool.false_eq_true, if_false]
      exact hfeq
    have hcon : (if (m.keys.filter fun k =>
        decide (excl = []) || !(excl.contains k)).isEmpty = true
        then m.keys
        else m.keys.filter fun k =>
          decide (excl = []) || !(excl.contains k)).contains ak = false := by
      rw [hAVeq]
      rcases hcc : (m.keys.filter fun k => !(excl.contains k)).contains ak
        with _ | _
      · rfl
      · have hcond := (List.mem_filter.mp (contains_iff.mp hcc)).2
        rw [contains_iff.mpr hak] at hcond
        cases hcond
    obtain ⟨a, t, hat⟩ := List.exists_cons_of_ne_nil
      (l := m.keys.filter fun k => !(excl.contains k))
      (fun e => by rw [e] at hk0A; cases hk0A)
    have hcon2 : ((a :: t).contains ak) = false := by
      rw [← hat]
      rcases hcc : (m.keys.filter fun k => !(excl.contains k)).contains ak
        with _ | _
      · rfl
      · have hcond2 := (List.mem_filter.mp (contains_iff.mp hcc)).2
        rw [contains_iff.mpr hak] at hcond2
        cases hcond2
    rw [gkwf_some_eq, if_neg hne, hb]
    simp only [hAVeq, hat, hcon2, Bool.false_eq_true, if_false,
      List.head?_cons]
  · -- everything excluded: fall back to the full pool, never none
    intro hall
    have hA0 : (m.keys.filter fun k =>
        decide (excl = []) || !(excl.contains k)).isEmpty = true := by
      have hexcl : excl ≠ [] := by
        obtain ⟨a, t, hat⟩ := List.exists_cons_of_ne_nil (l := m.keys) hkne
        intro e
        have := hall a (by rw [hat]; exact List.mem_cons_self _ _)
        rw [e] at this
        cases this
      rw [List.isEmpty_iff, List.filter_eq_nil_iff]
      intro a ha
      rw [decide_eq_false hexcl, Bool.false_or, contains_iff.mpr (hall a ha)]
      decide
    have hAVeq : (if (m.keys.filter fun k =>
        decide (excl = []) || !(excl.contains k)).isEmpty = true
        then m.keys
        else m.keys.filter fun k =>
          decide (excl = []) || !(excl.contains k)) = m.keys := by
      rw [hA0]
      simp
    rw [gkwf_some_eq, if_neg hne]
    cases hl : m.session_key_map.lookup sid with
    | none =>
        obtain ⟨a, t, hat⟩ := List.exists_cons_of_ne_nil (l := m.keys) hkne
        refine ⟨a, ?_, by rw [hat]; exact List.mem_cons_self _ _⟩
        rw [hAVeq, hat, List.head?_cons]
    | some ak' =>
        by_cases hc : m.keys.contains ak' = true
        · refine ⟨ak', ?_, contains_iff.mp hc⟩
          have hcon : (if (m.keys.filter fun k =>
              decide (excl = []) || !(excl.contains k)).isEmpty = true
              then m.keys
              else m.keys.filter fun k =>
                decide (excl = []) || !(excl.contains k)).contains ak' = true := by
            rw [hAVeq]; exact hc
          simp only [hcon, if_true]
        · obtain ⟨a, t, hat⟩ := List.exists_cons_of_ne_nil (l := m.keys) hkne
          refine ⟨a, ?_, by rw [hat]; exact List.mem_cons_self _ _⟩
          have hcon : (if (m.keys.filter fun k =>
              decide (excl = []) || !(excl.contains k)).isEmpty = true
              then m.keys
              else m.keys.filter fun k =>
                decide (excl = []) || !(excl.contains k)).contains ak' = false := by
            rw [hAVeq]
            rcases hcc : m.keys.contains ak' with _ | _
            · rfl
            · exact absurd hcc hc
          simp only [hcon, Bool.false_eq_true, if_false]
          rw [hAVeq, hat]

/-- Witness for C5: pool `[k1, k2]`, session bound to `k1`, `k1`
excluded — the call rebinds to the first non-excluded key `k2`. -/
theorem failover_correct_witness :
    2 ≤ (⟨["k1".data, "k2".data], 0, [("s".data, "k1".data)], [], []⟩ :
      APIKeyManager).keys.length ∧
    (get_key_with_fallback
      ⟨["k1".data, "k2".data], 0, [("s".data, "k1".data)], [], []⟩
      (some "s".data) ["k1".data]).1 =
      ((["k1".data, "k2".data] : List Str).filter
        fun k => !(["k1".data].contains k)).head? :=
  ⟨by decide,
    (failover_correct
      ⟨["k1".data, "k2".data], 0, [("s".data, "k1".data)], [], []⟩
      "s".data "k1".data ["k1".data] (by decide)).2.2.1
      (by decide) (by decide) ⟨"k2".data, by decide, by decide⟩⟩

/-! ## C8: empty-corpus terminal case -/

/-- C8. Against a store holding zero chunks the search returns the empty
sequence, not an error, and `ask` returns the designated fixed
no-relevant-information answer with an empty sources list; the same
holds for any search backend whose result is empty. -/
theorem empty_corpus_terminal (vs : VectorStore) (h1 : vs.index = [])
    (h2 : vs.chunks = []) :
    (∀ q k, vs.search q k = []) ∧
    (∀ llm embed question hist maxh,
      QAAgent.ask (localSearch vs) llm embed question hist maxh =
        (noInfoMsg, [])) ∧
    (∀ (search : List Int → Nat → List RetrievedChunk) llm embed question
        hist maxh, search (embed question) 5 = [] →
      QAAgent.ask search llm embed question hist maxh = (noInfoMsg, [])) := by
  have hs : ∀ q k, vs.search q k = [] := by
    intro q k
    simp [VectorStore.search, h1]
  refine ⟨hs, fun llm embed question hist maxh => ?_,
    fun search llm embed question hist maxh hempty => ?_⟩
  · simp [QAAgent.ask, localSearch, hs]
  · simp [QAAgent.ask, hempty]

/-- Witness for C8 at the freshly constructed local store. -/
theorem empty_corpus_terminal_witness :
    (VectorStore.init 384).index = [] ∧
    (VectorStore.init 384).chunks = [] ∧
    QAAgent.ask (localSearch (VectorStore.init 384))
      (fun _ _ _ => "ans".data) (fun _ => [1]) "q".data none 6 =
      (noInfoMsg, []) :=
  ⟨rfl, rfl,
    (empty_corpus_terminal (VectorStore.init 384) rfl rfl).2.1
      (fun _ _ _ => "ans".data) (fun _ => [1]) "q".data none 6⟩

/-! ## C9: source extraction contract -/

/-- C9, counterexample to the claim as stated: the model's answer
explicitly cites the source tag `Unknown` (so the cited-tag set is
nonempty), yet `ask` does not return that cited set — it filters the
literal `Unknown` out and falls back to the retrieval candidates. -/
theorem sources_contract_counterexample :
    ((scanCits
      (QAAgent.ask
        (fun _ _ => [RetrievedChunk.triple "txt".data 1
          (some ⟨"f".data, "doc.pdf".data, "t".data⟩)])
        (fun _ _ _ => "Ans [Source: Unknown]".data)
        (fun _ => [1]) "q".data none 6).1.length
      (QAAgent.ask
        (fun _ _ => [RetrievedChunk.triple "txt".data 1
          (some ⟨"f".data, "doc.pdf".data, "t".data⟩)])
        (fun _ _ _ => "Ans [Source: Unknown]".data)
        (fun _ => [1]) "q".data none 6).1).dedup = ["Unknown".data]) ∧
    (QAAgent.ask
      (fun _ _ => [RetrievedChunk.triple "txt".data 1
        (some ⟨"f".data, "doc.pdf".data, "t".data⟩)])
      (fun _ _ _ => "Ans [Source: Unknown]".data)
      (fun _ => [1]) "q".data none 6).2 = ["doc.pdf".data] ∧
    (["doc.pdf".data] : List Str) ≠ ["Unknown".data] := by
  refine ⟨by decide, by decide, by decide⟩

/-- C9 as amended: with a nonempty retrieval, the sources `ask` returns
are the deduplicated cleaned citations of the answer text — each regex
capture with bold markers stripped, dropping empty captures and the
literal `Unknown` — and, when that cleaned set is empty, the full
candidate source set carried by the retrieved chunks, for retrieval
results from either backend. -/
theorem sources_contract (search : List Int → Nat → List RetrievedChunk)
    (llm : Str → Option (List ChatMsg) → Str → Str) (embed : Str → List Int)
    (question : Str) (hist : Option (List ChatMsg)) (maxh : Nat)
    (h : search (embed question) 5 ≠ []) :
    (QAAgent.ask search llm embed question hist maxh).2 =
      if ((cleanCited
            (QAAgent.ask search llm embed question hist maxh).1).dedup).isEmpty
      then candidateSources (search (embed question) 5)
      else (cleanCited
            (QAAgent.ask search llm embed question hist maxh).1).dedup := by
  have hc : (search (embed question) 5).isEmpty = false := by
    rcases hcc : (search (embed question) 5).isEmpty with _ | _
    · rfl
    · exact absurd (List.isEmpty_iff.mp hcc) h
  simp only [QAAgent.ask, hc, Bool.false_eq_true, if_false, finalSources]

/-- Witness for C9's amended contract at a concrete run. -/
theorem sources_contract_witness :
    ((fun (_ : List Int) (_ : Nat) => [RetrievedChunk.triple "txt".data 1
        (some ⟨"f".data, "doc.pdf".data, "t".data⟩)])
      ((fun (_ : Str) => [(1 : Int)]) "q".data) 5 ≠ []) ∧
    (QAAgent.ask
      (fun _ _ => [RetrievedChunk.triple "txt".data 1
        (some ⟨"f".data, "doc.pdf".data, "t".data⟩)])
      (fun _ _ _ => "Ans [Source: **doc.pdf**]".data)
      (fun _ => [1]) "q".data none 6).2 =
      if ((cleanCited
          (QAAgent.ask
            (fun _ _ => [RetrievedChunk.triple "txt".data 1
              (some ⟨"f".data, "doc.pdf".data, "t".data⟩)])
            (fun _ _ _ => "Ans [Source: **doc.pdf**]".data)
            (fun _ => [1]) "q".data none 6).1).dedup).isEmpty
      then candidateSources
        [RetrievedChunk.triple "txt".data 1
          (some ⟨"f".data, "doc.pdf".data, "t".data⟩)]
      else (cleanCited
          (QAAgent.ask
            (fun _ _ => [RetrievedChunk.triple "txt".data 1
              (some ⟨"f".data, "doc.pdf".data, "t".data⟩)])
            (fun _ _ _ => "Ans [Source: **doc.pdf**]".data)
            (fun _ => [1]) "q".data none 6).1).dedup :=
  ⟨by decide,
    sources_contract
      (fun _ _ => [RetrievedChunk.triple "txt".data 1
        (some ⟨"f".data, "doc.pdf".data, "t".data⟩)])
      (fun _ _ _ => "Ans [Source: **doc.pdf**]".data)
      (fun _ => [1]) "q".data none 6 (by decide)⟩

/-! ## Sync-engine lemmas (C1, C2, C3) -/

/-- The store component of one per-file step, by itself. -/
def sync_file_st (pipeline : DriveFile → List (Str × List Int))
    (processed : List (Str × Str)) (st : List MongoDoc) (f : DriveFile) :
    List MongoDoc :=
  match processed.lookup f.id with
  | some mt =>
      if mt = f.modifiedTime then st
      else
        if (pipeline f).isEmpty then delete_by_file_id st f.id
        else delete_by_file_id st f.id ++ mkDocs f (pipeline f)
  | none =>
      if (pipeline f).isEmpty then st
      else st ++ mkDocs f (pipeline f)

/-- `sync_file` acts on the store exactly as `sync_file_st`. -/
theorem sync_file_store_eq (pipeline : DriveFile → List (Str × List Int))
    (processed : List (Str × Str)) (acc : SyncResult) (f : DriveFile) :
    (sync_file pipeline processed acc f).store =
      sync_file_st pipeline processed acc.store f := by
  unfold sync_file sync_file_st
  cases processed.lookup f.id with
  | none => by_cases hcs : (pipeline f).isEmpty <;> simp [hcs]
  | some mt =>
      by_cases hmt : mt = f.modifiedTime
      · simp [hmt]
      · by_cases hcs : (pipeline f).isEmpty <;> simp [hmt, hcs]

/-- The per-file loop acts on the store as the fold of `sync_file_st`. -/
theorem foldl_sync_file_store (pipeline : DriveFile → List (Str × List Int))
    (processed : List (Str × Str)) (l : List DriveFile) (acc : SyncResult) :
    (l.foldl (sync_file pipeline processed) acc).store =
      l.foldl (sync_file_st pipeline processed) acc.store := by
  induction l generalizing acc with
  | nil => rfl
  | cons f fs ih =>
      simp only [List.foldl_cons, ih, sync_file_store_eq]

/-- The eviction loop acts on the store as a fold of deletions. -/
theorem foldl_evict_store (l : List Str) (acc : SyncResult) :
    (l.foldl evict_file acc).store = l.foldl delete_by_file_id acc.store := by
  induction l generalizing acc with
  | nil => rfl
  | cons i is ih => simp only [List.foldl_cons, ih, evict_file]

/-- `sync_now`'s resulting store, written with the store-only folds. -/
theorem sync_now_store_eq (pipeline : DriveFile → List (Str × List Int))
    (store : List MongoDoc) (files : List DriveFile) :
    (sync_now pipeline store files).store =
      (((get_all_metadata store).map Prod.fst).filter
        fun i => files.all fun f => decide (f.id ≠ i)).foldl delete_by_file_id
        (files.foldl (sync_file_st pipeline (get_all_metadata store)) store) := by
  unfold sync_now
  rw [foldl_evict_store, foldl_sync_file_store]

/-- Membership in a deletion result. -/
theorem mem_delete_by_file_id {docs : List MongoDoc} {fid : Str}
    {d : MongoDoc} :
    d ∈ delete_by_file_id docs fid ↔ d ∈ docs ∧ docFileId d ≠ some fid := by
  simp [delete_by_file_id, List.mem_filter]

/-- Deletion folds only remove documents. -/
theorem delete_fold_subset {l : List Str} {st : List MongoDoc} {d : MongoDoc}
    (h : d ∈ l.foldl delete_by_file_id st) : d ∈ st := by
  induction l generalizing st with
  | nil => exact h
  | cons i is ih =>
      exact (mem_delete_by_file_id.mp (ih h)).1

/-- After a deletion fold covering `fid`, no document carries `fid`. -/
theorem delete_fold_no_fid {l : List Str} {st : List MongoDoc} {fid : Str}
    (hmem : fid ∈ l) :
    ∀ d ∈ l.foldl delete_by_file_id st, docFileId d ≠ some fid := by
  induction l generalizing st with
  | nil => cases hmem
  | cons i is ih =>
      intro d hd
      rcases List.mem_cons.mp hmem with rfl | hmem'
      · by_cases his : fid ∈ is
        · exact ih his d hd
        · have hsub : d ∈ delete_by_file_id st fid := delete_fold_subset hd
          exact (mem_delete_by_file_id.mp hsub).2
      · exact ih hmem' d hd

/-- A document surviving a deletion fold that never targets its id. -/
theorem delete_fold_keep {l : List Str} {st : List MongoDoc} {d : MongoDoc}
    (hd : d ∈ st) (h : ∀ i ∈ l, docFileId d ≠ some i) :
    d ∈ l.foldl delete_by_file_id st := by
  induction l generalizing st with
  | nil => exact hd
  | cons i is ih =>
      refine ih ?_ (fun j hj => h j (List.mem_cons_of_mem i hj))
      exact mem_delete_by_file_id.mpr ⟨hd, h i (List.mem_cons_self _ _)⟩

/-- Every document inserted for `f` carries `f`'s id and token. -/
theorem mem_mkDocs {f : DriveFile} {cs : List (Str × List Int)}
    {d : MongoDoc} (h : d ∈ mkDocs f cs) :
    docFileId d = some f.id ∧ docTime d = some f.modifiedTime := by
  rcases List.mem_map.mp h with ⟨c, _, rfl⟩
  exact ⟨rfl, rfl⟩

/-- A document after one per-file step came from the previous store or
from the file's freshly inserted chunks; a survivor from the store
cannot carry the file's id if the file was dirty while indexed. -/
theorem mem_sync_file_st {pipeline : DriveFile → List (Str × List Int)}
    {processed : List (Str × Str)} {st : List MongoDoc} {f : DriveFile}
    {d : MongoDoc} (hd : d ∈ sync_file_st pipeline processed st f) :
    d ∈ mkDocs f (pipeline f) ∨
    (d ∈ st ∧ ((∃ mt, processed.lookup f.id = some mt ∧ mt ≠ f.modifiedTime) →
      docFileId d ≠ some f.id)) := by
  unfold sync_file_st at hd
  split at hd
  next mt heq =>
    split at hd
    next hmt =>
      refine Or.inr ⟨hd, fun ⟨mt', hmt', hne⟩ => ?_⟩
      rw [heq] at hmt'
      cases hmt'
      exact absurd hmt hne
    next hmt =>
      split at hd
      next hcs =>
        have h2 := mem_delete_by_file_id.mp hd
        exact Or.inr ⟨h2.1, fun _ => h2.2⟩
      next hcs =>
        rcases List.mem_append.mp hd with hd | hd
        · have h2 := mem_delete_by_file_id.mp hd
          exact Or.inr ⟨h2.1, fun _ => h2.2⟩
        · exact Or.inl hd
  next heq =>
    split at hd
    next hcs =>
      exact Or.inr ⟨hd, fun ⟨mt, hmt, _⟩ => by rw [heq] at hmt; cases hmt⟩
    next hcs =>
      rcases List.mem_append.mp hd with hd | hd
      · exact Or.inr ⟨hd, fun ⟨mt, hmt, _⟩ => by rw [heq] at hmt; cases hmt⟩
      · exact Or.inl hd

/-- A document with a different id survives one per-file step. -/
theorem sync_file_st_keep {pipeline : DriveFile → List (Str × List Int)}
    {processed : List (Str × Str)} {st : List MongoDoc} {f : DriveFile}
    {d : MongoDoc} (hd : d ∈ st) (hne : docFileId d ≠ some f.id) :
    d ∈ sync_file_st pipeline processed st f := by
  unfold sync_file_st
  split
  · split
    · exact hd
    · split
      · exact mem_delete_by_file_id.mpr ⟨hd, hne⟩
      · exact List.mem_append.mpr (Or.inl (mem_delete_by_file_id.mpr ⟨hd, hne⟩))
  · split
    · exact hd
    · exact List.mem_append.mpr (Or.inl hd)

/-- A document with an id no remaining file carries survives the rest of
the per-file loop. -/
theorem sync_fold_keep {pipeline : DriveFile → List (Str × List Int)}
    {processed : List (Str × Str)} {l : List DriveFile} {st : List MongoDoc}
    {d : MongoDoc} (hd : d ∈ st) (h : ∀ g ∈ l, docFileId d ≠ some g.id) :
    d ∈ l.foldl (sync_file_st pipeline processed) st := by
  induction l generalizing st with
  | nil => exact hd
  | cons g gs ih =>
      refine ih ?_ (fun g' hg' => h g' (List.mem_cons_of_mem g hg'))
      exact sync_file_st_keep hd (h g (List.mem_cons_self _ _))

/-- Membership in the distinct-id set of the collection. -/
theorem mem_storeFileIds {docs : List MongoDoc} {i : Str} :
    i ∈ storeFileIds docs ↔ (∃ d ∈ docs, docFileId d = some i) ∧ i ≠ [] := by
  simp only [storeFileIds, List.mem_filter, List.mem_dedup, List.mem_filterMap,
    decide_eq_true_eq]

/-- The keys of the derived file index are exactly the distinct ids. -/
theorem get_all_metadata_keys (docs : List MongoDoc) :
    (get_all_metadata docs).map Prod.fst = storeFileIds docs := by
  have hcomp : (Prod.fst ∘ fun i => (i, maxTime (timesFor docs i))) = id := rfl
  rw [get_all_metadata, List.map_map, hcomp, List.map_id]

/-- Looking an indexed id up in the derived file index. -/
theorem lookup_get_all_metadata {docs : List MongoDoc} {i : Str}
    (h : i ∈ storeFileIds docs) :
    (get_all_metadata docs).lookup i = some (maxTime (timesFor docs i)) :=
  lookup_graph h

/-- Looking a non-indexed id up in the derived file index. -/
theorem lookup_get_all_metadata_none {docs : List MongoDoc} {i : Str}
    (h : i ∉ storeFileIds docs) :
    (get_all_metadata docs).lookup i = none :=
  lookup_graph_none h

/-- Membership in the times of a group. -/
theorem mem_timesFor {docs : List MongoDoc} {i : Str} {x : Str} :
    x ∈ timesFor docs i ↔
      ∃ d ∈ docs, docFileId d = some i ∧ docTime d = some x := by
  simp only [timesFor, List.mem_filterMap]
  constructor
  · rintro ⟨d, hd, hx⟩
    split at hx
    next m hm =>
      split at hx
      next hfi =>
        cases hx
        exact ⟨d, hd, by simp [docFileId, hm, hfi], by simp [docTime, hm]⟩
      next hfi => cases hx
    next hm => cases hx
  · rintro ⟨d, hd, hfi, ht⟩
    refine ⟨d, hd, ?_⟩
    rcases hm : d.metadata with _ | m
    · simp [docFileId, hm] at hfi
    · simp only [docFileId, hm, Option.map_some', Option.some_inj] at hfi
      simp only [docTime, hm, Option.map_some', Option.some_inj] at ht
      simp [hm, hfi, ht]

/-- A string is not below itself. -/
theorem strLt_irrefl (s : Str) : strLt s s = false := by
  induction s with
  | nil => rfl
  | cons c cs ih => simp [strLt, ih]

/-- The empty string is the bottom of the string order. -/
theorem strMax_nil (s : Str) : strMax [] s = s := by
  cases s with
  | nil => rfl
  | cons c cs => simp [strMax, strLt]

/-- The `$max` of a nonempty group of equal values is that value. -/
theorem maxTime_const {ts : List Str} {t : Str} (hne : ts ≠ [])
    (hall : ∀ x ∈ ts, x = t) : maxTime ts = t := by
  cases ts with
  | nil => exact absurd rfl hne
  | cons a as =>
      have ha : a = t := hall a (List.mem_cons_self _ _)
      have hfold : ∀ (l : List Str), (∀ x ∈ l, x = t) →
          List.foldl strMax t l = t := by
        intro l
        induction l with
        | nil => intro _; rfl
        | cons b bs ihb =>
            intro hb
            have hbt : b = t := hb b (List.mem_cons_self _ _)
            subst hbt
            simp only [List.foldl_cons, strMax, strLt_irrefl, if_false]
            exact ihb fun x hx => hb x (List.mem_cons_of_mem b hx)
      unfold maxTime
      simp only [List.foldl_cons, strMax_nil, ha]
      exact hfold as fun x hx => hall x (List.mem_cons_of_mem a hx)

/-- Under the no-mixed-version invariant, every document of a group
carries the group's `$max` time: the index entry is exact. -/
theorem docTime_eq_maxTime {docs : List MongoDoc} {i : Str} {d : MongoDoc}
    (hg : goodStore docs) (hd : d ∈ docs) (hid : docFileId d = some i) :
    docTime d = some (maxTime (timesFor docs i)) := by
  rcases hm : d.metadata with _ | m
  · rw [docFileId, hm] at hid; cases hid
  · have ht : docTime d = some m.modified_time := by simp [docTime, hm]
    have hmem : m.modified_time ∈ timesFor docs i :=
      mem_timesFor.mpr ⟨d, hd, hid, ht⟩
    have hall : ∀ x ∈ timesFor docs i, x = m.modified_time := by
      intro x hx
      rcases mem_timesFor.mp hx with ⟨d', hd', hid', ht'⟩
      have := hg d' hd' d hd (by rw [hid', hid])
      rw [ht', ht] at this
      exact (Option.some_inj.mp this)
    rw [ht, maxTime_const (List.ne_nil_of_mem hmem) hall]

/-- `goodStore` restricts to any sub-collection. -/
theorem goodStore_mono {l l' : List MongoDoc}
    (hsub : ∀ d ∈ l', d ∈ l) (h : goodStore l) : goodStore l' :=
  fun d1 h1 d2 h2 => h d1 (hsub d1 h1) d2 (hsub d2 h2)

/-- Appending a file's fresh documents to a store that holds none of that
file's documents preserves the invariant. -/
theorem goodStore_append_new {st : List MongoDoc} {f : DriveFile}
    {cs : List (Str × List Int)} (hg : goodStore st)
    (hnone : ∀ d ∈ st, docFileId d ≠ some f.id) :
    goodStore (st ++ mkDocs f cs) := by
  intro d1 h1 d2 h2 hid
  rcases List.mem_append.mp h1 with h1 | h1 <;>
    rcases List.mem_append.mp h2 with h2 | h2
  · exact hg d1 h1 d2 h2 hid
  · rcases mem_mkDocs h2 with ⟨hi2, _⟩
    rw [hi2] at hid
    exact absurd hid (hnone d1 h1)
  · rcases mem_mkDocs h1 with ⟨hi1, _⟩
    rw [hi1] at hid
    exact absurd hid.symm (hnone d2 h2)
  · rcases mem_mkDocs h1 with ⟨_, ht1⟩
    rcases mem_mkDocs h2 with ⟨_, ht2⟩
    rw [ht1, ht2]

/-- One per-file step preserves the invariant, provided a file absent
from the loaded index has no documents in the store. -/
theorem sync_file_st_good {pipeline : DriveFile → List (Str × List Int)}
    {processed : List (Str × Str)} {st : List MongoDoc} {f : DriveFile}
    (hg : goodStore st)
    (hnone : processed.lookup f.id = none →
      ∀ d ∈ st, docFileId d ≠ some f.id) :
    goodStore (sync_file_st pipeline processed st f) := by
  unfold sync_file_st
  split
  next mt heq =>
    split
    next => exact hg
    next =>
      split
      next => exact goodStore_mono (fun d hd => (mem_delete_by_file_id.mp hd).1) hg
      next =>
        refine goodStore_append_new
          (goodStore_mono (fun d hd => (mem_delete_by_file_id.mp hd).1) hg) ?_
        intro d hd
        exact (mem_delete_by_file_id.mp hd).2
  next heq =>
    split
    next => exact hg
    next => exact goodStore_append_new hg (hnone heq)

/-- Two files whose index lookups disagree carry different ids. -/
theorem id_ne_of_lookup_ne {processed : List (Str × Str)} {f g : DriveFile}
    {mt : Str} (hf : processed.lookup f.id = none)
    (hg : processed.lookup g.id = some mt) : f.id ≠ g.id := by
  intro e
  rw [e, hg] at hf
  cases hf

/-- The per-file loop preserves the no-mixed-version invariant when the
listed ids are distinct and files absent from the loaded index have no
documents in the store. -/
theorem sync_fold_good {pipeline : DriveFile → List (Str × List Int)}
    {processed : List (Str × Str)} :
    ∀ (l : List DriveFile) (st : List MongoDoc),
    (listedIds l).Nodup →
    goodStore st →
    (∀ f ∈ l, processed.lookup f.id = none →
      ∀ d ∈ st, docFileId d ≠ some f.id) →
    goodStore (l.foldl (sync_file_st pipeline processed) st) := by
  intro l
  induction l with
  | nil => intro st _ hg _; exact hg
  | cons g gs ih =>
      intro st hnd hg hcond
      have hnd' : (listedIds gs).Nodup := (List.nodup_cons.mp hnd).2
      have hgnotin : g.id ∉ listedIds gs := (List.nodup_cons.mp hnd).1
      refine ih _ hnd' ?_ ?_
      · exact sync_file_st_good hg (hcond g (List.mem_cons_self _ _))
      · intro f hf hfl d hd
        rcases mem_sync_file_st hd with hd | ⟨hd, _⟩
        · rcases mem_mkDocs hd with ⟨hid, _⟩
          rw [hid]
          intro e
          have hfg : f.id = g.id := Option.some_inj.mp e.symm
          cases hgl : processed.lookup g.id with
          | some mt => exact id_ne_of_lookup_ne hfl hgl hfg
          | none =>
              exact hgnotin (hfg ▸ (List.mem_map.mpr ⟨f, hf, rfl⟩))
        · exact hcond f (List.mem_cons_of_mem g hf) hfl d hd

/-- The documents of `sync_now`'s resulting store satisfy the invariant:
the shared body of C1. -/
theorem sync_now_good (pipeline : DriveFile → List (Str × List Int))
    (store : List MongoDoc) (files : List DriveFile)
    (hg : goodStore store) (hnd : (listedIds files).Nodup)
    (hne : ∀ f ∈ files, f.id ≠ []) :
    goodStore (sync_now pipeline store files).store := by
  rw [sync_now_store_eq]
  refine goodStore_mono (fun d hd => delete_fold_subset hd) ?_
  refine sync_fold_good files store hnd hg ?_
  intro f hf hfl d hd hid
  have hin : f.id ∈ storeFileIds store :=
    mem_storeFileIds.mpr ⟨⟨d, hd, hid⟩, hne f hf⟩
  rw [lookup_get_all_metadata hin] at hfl
  cases hfl

/-- C1. The no-mixed-version invariant is preserved by every sync cycle:
if all chunks of each file in the RemoteStore carry one `modified_time`
before a cycle, the same holds at the observable point after the cycle —
a dirty file's chunks are deleted wholesale before the new version's
chunks are inserted, so chunks of two versions of one file are never
co-resident between cycles. -/
theorem no_mixed_version (pipeline : DriveFile → List (Str × List Int))
    (store : List MongoDoc) (files : List DriveFile)
    (hg : goodStore store) (hnd : (listedIds files).Nodup)
    (hne : ∀ f ∈ files, f.id ≠ []) :
    goodStore (sync_now pipeline store files).store :=
  sync_now_good pipeline store files hg hnd hne

/-- Witness for C1: an updated file (token `t1` → `t2`) is replaced, and
the resulting store satisfies the invariant. -/
theorem no_mixed_version_witness :
    goodStore [⟨"c".data, [1], some ⟨"f1".data, "n1".data, "t1".data⟩⟩] ∧
    (listedIds [⟨"f1".data, "n1".data, "t2".data, "pdf".data⟩]).Nodup ∧
    (∀ f ∈ [(⟨"f1".data, "n1".data, "t2".data, "pdf".data⟩ : DriveFile)],
      f.id ≠ []) ∧
    goodStore (sync_now (fun _ => [("c2".data, [2])])
      [⟨"c".data, [1], some ⟨"f1".data, "n1".data, "t1".data⟩⟩]
      [⟨"f1".data, "n1".data, "t2".data, "pdf".data⟩]).store :=
  ⟨by decide, by decide, by decide,
    no_mixed_version (fun _ => [("c2".data, [2])])
      [⟨"c".data, [1], some ⟨"f1".data, "n1".data, "t1".data⟩⟩]
      [⟨"f1".data, "n1".data, "t2".data, "pdf".data⟩]
      (by decide) (by decide) (by decide)⟩

/-- C2. Eviction completeness: every file id present in the loaded store
index but absent from the current remote listing has zero chunks left in
the RemoteStore after the cycle; the eviction step runs in every cycle
that reaches the listing stage, with no condition on whether any file
was added or updated. -/
theorem eviction_complete (pipeline : DriveFile → List (Str × List Int))
    (store : List MongoDoc) (files : List DriveFile) (fid : Str)
    (h1 : fid ∈ (get_all_metadata store).map Prod.fst)
    (h2 : ∀ f ∈ files, f.id ≠ fid) :
    ∀ d ∈ (sync_now pipeline store files).store, docFileId d ≠ some fid := by
  rw [sync_now_store_eq]
  apply delete_fold_no_fid
  refine List.mem_filter.mpr ⟨h1, ?_⟩
  rw [List.all_eq_true]
  intro f hf
  exact decide_eq_true (h2 f hf)

/-- Witness for C2: a stored file absent from an (empty) listing is
fully evicted even though nothing was added in the cycle. -/
theorem eviction_complete_witness :
    ("f1".data ∈ ((get_all_metadata
      [⟨"c".data, [1], some ⟨"f1".data, "n1".data, "t1".data⟩⟩]).map
        Prod.fst)) ∧
    (∀ d ∈ (sync_now (fun _ => [])
        [⟨"c".data, [1], some ⟨"f1".data, "n1".data, "t1".data⟩⟩] []).store,
      docFileId d ≠ some "f1".data) :=
  ⟨by decide,
    eviction_complete (fun _ => [])
      [⟨"c".data, [1], some ⟨"f1".data, "n1".data, "t1".data⟩⟩] [] "f1".data
      (by decide) (by decide)⟩

/-- With distinct listed ids, two listed files with one id share a token. -/
theorem listed_unique {files : List DriveFile}
    (hnd : (listedIds files).Nodup) {f f' : DriveFile} (hf : f ∈ files)
    (hf' : f' ∈ files) (he : f.id = f'.id) :
    f.modifiedTime = f'.modifiedTime := by
  induction files with
  | nil => cases hf
  | cons g gs ih =>
      have hnd' : (listedIds gs).Nodup := (List.nodup_cons.mp hnd).2
      have hgn : g.id ∉ listedIds gs := (List.nodup_cons.mp hnd).1
      rcases List.mem_cons.mp hf with rfl | hf2 <;>
        rcases List.mem_cons.mp hf' with rfl | hf2'
      · rfl
      · exact absurd (List.mem_map.mpr ⟨f', hf2', he.symm⟩) hgn
      · exact absurd (List.mem_map.mpr ⟨f, hf2, he⟩) hgn
      · exact ih hnd' hf2 hf2'

/-- A dirty file's fresh documents are all in the step's result. -/
theorem mkDocs_sub_sync_file_st {pipeline : DriveFile → List (Str × List Int)}
    {processed : List (Str × Str)} {st : List MongoDoc} {f : DriveFile}
    (hdirty : processed.lookup f.id ≠ some f.modifiedTime) {d : MongoDoc}
    (hd : d ∈ mkDocs f (pipeline f)) :
    d ∈ sync_file_st pipeline processed st f := by
  unfold sync_file_st
  split
  next mt heq =>
    split
    next hmt => exact absurd (by rw [heq, hmt]) hdirty
    next hmt =>
      split
      next hcse =>
          rw [List.isEmpty_iff.mp hcse] at hd
          simp [mkDocs] at hd
      next => exact List.mem_append.mpr (Or.inr hd)
  next heq =>
    split
    next hcse =>
        rw [List.isEmpty_iff.mp hcse] at hd
        simp [mkDocs] at hd
    next => exact List.mem_append.mpr (Or.inr hd)

/-- A listed file that is clean with stored documents, or dirty with a
nonempty chunk pipeline, has documents with its id after the loop. -/
theorem presence_fold {pipeline : DriveFile → List (Str × List Int)}
    {processed : List (Str × Str)} :
    ∀ (l : List DriveFile) (st : List MongoDoc) (f : DriveFile),
    f ∈ l → (listedIds l).Nodup →
    ((processed.lookup f.id = some f.modifiedTime ∧
        ∃ d ∈ st, docFileId d = some f.id) ∨
      (processed.lookup f.id ≠ some f.modifiedTime ∧ pipeline f ≠ [])) →
    ∃ d ∈ l.foldl (sync_file_st pipeline processed) st,
      docFileId d = some f.id := by
  intro l
  induction l with
  | nil => intro st f hf; cases hf
  | cons g gs ih =>
      intro st f hf hnd hcase
      have hnd' : (listedIds gs).Nodup := (List.nodup_cons.mp hnd).2
      have hgn : g.id ∉ listedIds gs := (List.nodup_cons.mp hnd).1
      rcases List.mem_cons.mp hf with rfl | hf'
      · have hidene : ∀ g' ∈ gs, f.id ≠ g'.id := by
          intro g' hg' e
          exact hgn (e ▸ List.mem_map.mpr ⟨g', hg', rfl⟩)
        rcases hcase with ⟨hclean, d, hd, hdid⟩ | ⟨hdirty, hcs⟩
        · have hst' : sync_file_st pipeline processed st f = st := by
            unfold sync_file_st
            simp [hclean]
          rw [List.foldl_cons, hst']
          refine ⟨d, sync_fold_keep hd ?_, hdid⟩
          intro g' hg' e
          rw [hdid] at e
          exact hidene g' hg' (Option.some_inj.mp e)
        · obtain ⟨c, cs, hcseq⟩ := List.exists_cons_of_ne_nil hcs
          obtain ⟨d0, hd0m, hd0id⟩ :
              ∃ d0 ∈ mkDocs f (pipeline f), docFileId d0 = some f.id := by
            unfold mkDocs
            rw [hcseq]
            exact ⟨_, List.mem_map.mpr ⟨c, List.mem_cons_self _ _, rfl⟩, rfl⟩
          rw [List.foldl_cons]
          refine ⟨d0, sync_fold_keep (mkDocs_sub_sync_file_st hdirty hd0m) ?_,
            hd0id⟩
          intro g' hg' e
          rw [hd0id] at e
          exact hidene g' hg' (Option.some_inj.mp e)
      · apply ih (sync_file_st pipeline processed st g) f hf' hnd'
        rcases hcase with ⟨hclean, d, hd, hdid⟩ | hdirty
        · refine Or.inl ⟨hclean, d, sync_file_st_keep hd ?_, hdid⟩
          rw [hdid]
          intro e
          exact hgn ((Option.some_inj.mp e) ▸ List.mem_map.mpr ⟨f, hf', rfl⟩)
        · exact Or.inr hdirty

/-- A clean file's per-file step is a no-op on state and mutations. -/
theorem sync_file_clean_id {pipeline : DriveFile → List (Str × List Int)}
    {processed : List (Str × Str)} {f : DriveFile}
    (h : processed.lookup f.id = some f.modifiedTime) (acc : SyncResult) :
    sync_file pipeline processed acc f = acc := by
  unfold sync_file
  simp [h]

/-- An unindexed file with an empty chunk pipeline is a no-op: nothing
to delete (it is not indexed) and nothing to insert. -/
theorem sync_file_absent_id {pipeline : DriveFile → List (Str × List Int)}
    {processed : List (Str × Str)} {f : DriveFile}
    (h1 : processed.lookup f.id = none) (h2 : pipeline f = [])
    (acc : SyncResult) :
    sync_file pipeline processed acc f = acc := by
  unfold sync_file
  simp [h1, h2]

/-- `sync_now`, written without lets. -/
theorem sync_now_eq (pipeline : DriveFile → List (Str × List Int))
    (store : List MongoDoc) (files : List DriveFile) :
    sync_now pipeline store files =
      (((get_all_metadata store).map Prod.fst).filter
        fun i => files.all fun f => decide (f.id ≠ i)).foldl evict_file
        (files.foldl (sync_file pipeline (get_all_metadata store))
          { store := store, muts := [] }) := rfl

/-- Loop invariant for the per-file pass: every document is either final
(it matches a listed file's id and token) or an untouched original whose
file is unlisted or not yet processed.  After the full pass the third
option is gone. -/
theorem sync_fold_chars {pipeline : DriveFile → List (Str × List Int)}
    {store : List MongoDoc} {files : List DriveFile}
    (hg : goodStore store) :
    ∀ (l : List DriveFile) (st : List MongoDoc),
    (∀ f ∈ l, f ∈ files) →
    (listedIds l).Nodup →
    (∀ d ∈ st, ∀ i, docFileId d = some i → i ≠ [] →
      (∃ f ∈ files, f.id = i ∧ docTime d = some f.modifiedTime) ∨
      (d ∈ store ∧ (i ∉ listedIds files ∨ ∃ f2 ∈ l, f2.id = i))) →
    ∀ d ∈ l.foldl (sync_file_st pipeline (get_all_metadata store)) st,
      ∀ i, docFileId d = some i → i ≠ [] →
      (∃ f ∈ files, f.id = i ∧ docTime d = some f.modifiedTime) ∨
      (d ∈ store ∧ i ∉ listedIds files) := by
  intro l
  induction l with
  | nil =>
      intro st _ _ hP d hd i hid hine
      rcases hP d hd i hid hine with hfin | ⟨hstore, hnl | ⟨f2, hf2, _⟩⟩
      · exact Or.inl hfin
      · exact Or.inr ⟨hstore, hnl⟩
      · cases hf2
  | cons g gs ih =>
      intro st hsub hnd hP
      have hnd' : (listedIds gs).Nodup := (List.nodup_cons.mp hnd).2
      have hgm : g ∈ files := hsub g (List.mem_cons_self _ _)
      rw [List.foldl_cons]
      refine ih _ (fun f hf => hsub f (List.mem_cons_of_mem g hf)) hnd' ?_
      intro d hd i hid hine
      rcases mem_sync_file_st hd with hnew | ⟨hold, hcond⟩
      · rcases mem_mkDocs hnew with ⟨hgid, hgt⟩
        have hgi : g.id = i := Option.some_inj.mp (hgid.symm.trans hid)
        exact Or.inl ⟨g, hgm, hgi, hgt⟩
      · rcases hP d hold i hid hine with hfin | ⟨hstore, hrest⟩
        · exact Or.inl hfin
        · rcases hrest with hnl | ⟨f2, hf2, hf2id⟩
          · exact Or.inr ⟨hstore, Or.inl hnl⟩
          · by_cases hgi : g.id = i
            · have hdid : docFileId d = some g.id := by rw [hid, hgi]
              have himem : g.id ∈ storeFileIds store := by
                refine mem_storeFileIds.mpr ⟨⟨d, hstore, hdid⟩, ?_⟩
                rw [hgi]; exact hine
              cases hgl : (get_all_metadata store).lookup g.id with
              | some mt =>
                  by_cases hmt : mt = g.modifiedTime
                  · refine Or.inl ⟨g, hgm, hgi, ?_⟩
                    have hmax := docTime_eq_maxTime hg hstore hdid
                    rw [lookup_get_all_metadata himem] at hgl
                    have hmte : mt = maxTime (timesFor store g.id) :=
                      Option.some_inj.mp hgl.symm
                    rw [hgi] at hmax
                    rw [hmax, ← hgi, ← hmte, hmt]
                  · exact absurd hdid (hcond ⟨mt, hgl, hmt⟩)
              | none =>
                  rw [lookup_get_all_metadata himem] at hgl
                  cases hgl
            · refine Or.inr ⟨hstore, Or.inr ⟨f2, ?_, hf2id⟩⟩
              rcases List.mem_cons.mp hf2 with rfl | hf2'
              · exact absurd hf2id hgi
              · exact hf2'

/-- After a full cycle, every document that carries a nonempty file id
matches a listed file's id and modification token: the shared
characterization of the post-cycle store. -/
theorem sync_now_chars (pipeline : DriveFile → List (Str × List Int))
    (store : List MongoDoc) (files : List DriveFile)
    (hg : goodStore store) (hnd : (listedIds files).Nodup) :
    ∀ d ∈ (sync_now pipeline store files).store, ∀ i,
      docFileId d = some i → i ≠ [] →
      ∃ f ∈ files, f.id = i ∧ docTime d = some f.modifiedTime := by
  rw [sync_now_store_eq]
  intro d hd i hid hine
  have hd1 := delete_fold_subset hd
  have hinit : ∀ d' ∈ store, ∀ i', docFileId d' = some i' → i' ≠ [] →
      (∃ f ∈ files, f.id = i' ∧ docTime d' = some f.modifiedTime) ∨
      (d' ∈ store ∧ (i' ∉ listedIds files ∨ ∃ f2 ∈ files, f2.id = i')) := by
    intro d' hd' i' _ _
    by_cases hil : i' ∈ listedIds files
    · rcases List.mem_map.mp hil with ⟨f2, hf2, hf2id⟩
      exact Or.inr ⟨hd', Or.inr ⟨f2, hf2, hf2id⟩⟩
    · exact Or.inr ⟨hd', Or.inl hil⟩
  rcases sync_fold_chars hg files store (fun f hf => hf) hnd hinit d hd1 i hid
      hine with hfin | ⟨hstore, hnl⟩
  · exact hfin
  · exfalso
    have hin : i ∈ storeFileIds store :=
      mem_storeFileIds.mpr ⟨⟨d, hstore, hid⟩, hine⟩
    have htd : i ∈ ((get_all_metadata store).map Prod.fst).filter
        fun j => files.all fun f => decide (f.id ≠ j) := by
      refine List.mem_filter.mpr ⟨by rw [get_all_metadata_keys]; exact hin, ?_⟩
      rw [List.all_eq_true]
      intro f hf
      rw [decide_eq_true_eq]
      intro e
      exact hnl (e ▸ List.mem_map.mpr ⟨f, hf, rfl⟩)
    exact delete_fold_no_fid htd d hd hid

/-- C3, as amended.  Running a sync cycle twice with the remote listing
and the processing pipeline unchanged performs zero chunk mutations on
the second run, and leaves the store identical: every file that
contributed at least one chunk is indexed with an equal token and is
clean; a file that yielded zero chunks is re-detected as dirty but
causes neither a deletion (it is not indexed) nor an insertion (its
pipeline is still empty); and the eviction set is empty. -/
theorem sync_idempotent (pipeline : DriveFile → List (Str × List Int))
    (store : List MongoDoc) (files : List DriveFile)
    (hg : goodStore store) (hnd : (listedIds files).Nodup)
    (hne : ∀ f ∈ files, f.id ≠ []) :
    sync_now pipeline ((sync_now pipeline store files).store) files =
      { store := (sync_now pipeline store files).store, muts := [] } := by
  have hg1 : goodStore (sync_now pipeline store files).store :=
    sync_now_good pipeline store files hg hnd hne
  have hchars := sync_now_chars pipeline store files hg hnd
  have hlook : ∀ f ∈ files,
      (get_all_metadata (sync_now pipeline store files).store).lookup f.id
        = none ∨
      (get_all_metadata (sync_now pipeline store files).store).lookup f.id
        = some f.modifiedTime := by
    intro f hf
    by_cases hmem : f.id ∈ storeFileIds (sync_now pipeline store files).store
    · right
      rw [lookup_get_all_metadata hmem]
      obtain ⟨⟨d, hd, hdid⟩, hine⟩ := mem_storeFileIds.mp hmem
      obtain ⟨f', hf', hfid', hft'⟩ := hchars d hd f.id hdid hine
      have hmax := docTime_eq_maxTime hg1 hd hdid
      have h1 : f'.modifiedTime =
          maxTime (timesFor (sync_now pipeline store files).store f.id) :=
        Option.some_inj.mp (hft'.symm.trans hmax)
      have h2 : f'.modifiedTime = f.modifiedTime :=
        listed_unique hnd hf' hf hfid'
      rw [← h1, h2]
    · left
      exact lookup_get_all_metadata_none hmem
  have hnonechunks : ∀ f ∈ files,
      (get_all_metadata (sync_now pipeline store files).store).lookup f.id
        = none → pipeline f = [] := by
    intro f hf hnone
    by_contra hcs
    have hpres : ∃ d ∈ (sync_now pipeline store files).store,
        docFileId d = some f.id := by
      rw [sync_now_store_eq]
      have hloop : ∃ d ∈ files.foldl
          (sync_file_st pipeline (get_all_metadata store)) store,
          docFileId d = some f.id := by
        apply presence_fold files store f hf hnd
        cases hl0 : (get_all_metadata store).lookup f.id with
        | some mt =>
            by_cases hmt : mt = f.modifiedTime
            · refine Or.inl ⟨by rw [hmt], ?_⟩
              have hin : f.id ∈ storeFileIds store := by
                by_contra hh
                rw [lookup_get_all_metadata_none hh] at hl0
                cases hl0
              obtain ⟨⟨d, hd, hdid⟩, _⟩ := mem_storeFileIds.mp hin
              exact ⟨d, hd, hdid⟩
            · refine Or.inr ⟨?_, hcs⟩
              intro e
              exact hmt (Option.some_inj.mp e)
        | none =>
            refine Or.inr ⟨?_, hcs⟩
            intro e
            cases e
      obtain ⟨d, hd, hdid⟩ := hloop
      refine ⟨d, ?_, hdid⟩
      apply delete_fold_keep hd
      intro j hj hdj
      have hj2 := (List.mem_filter.mp hj).2
      rw [List.all_eq_true] at hj2
      have hfj := hj2 f hf
      rw [decide_eq_true_eq] at hfj
      exact hfj (Option.some_inj.mp (hdid.symm.trans hdj))
    obtain ⟨d, hd, hdid⟩ := hpres
    have hin : f.id ∈ storeFileIds (sync_now pipeline store files).store :=
      mem_storeFileIds.mpr ⟨⟨d, hd, hdid⟩, hne f hf⟩
    rw [lookup_get_all_metadata hin] at hnone
    cases hnone
  have hfold : files.foldl
      (sync_file pipeline (get_all_metadata (sync_now pipeline store files).store))
      { store := (sync_now pipeline store files).store, muts := [] } =
      { store := (sync_now pipeline store files).store, muts := [] } := by
    apply foldl_fixed
    intro f hf acc
    rcases hlook f hf with hl | hl
    · exact sync_file_absent_id hl (hnonechunks f hf hl) acc
    · exact sync_file_clean_id hl acc
  have htd : (((get_all_metadata (sync_now pipeline store files).store).map
      Prod.fst).filter fun i => files.all fun f => decide (f.id ≠ i)) = [] := by
    rw [List.filter_eq_nil_iff]
    intro i hi hall
    rw [get_all_metadata_keys] at hi
    obtain ⟨⟨d, hd, hdid⟩, hine⟩ := mem_storeFileIds.mp hi
    obtain ⟨f, hf, hfid, _⟩ := hchars d hd i hdid hine
    rw [List.all_eq_true] at hall
    have hfi := hall f hf
    rw [decide_eq_true_eq] at hfi
    exact hfi hfid
  rw [sync_now_eq pipeline (sync_now pipeline store files).store files,
    hfold, htd]
  rfl

/-- C3, counterexample to the claim as stated: a listed file whose
pipeline yields zero chunks is processed in the first cycle but leaves
no chunk documents, so its id is **not** present in the stored index
afterwards, and on the second run it is dirty again — the claim's
"every file's id is then present in the stored index with an equal
modification token, so no file is dirty" fails.  (Zero chunk mutations
still happen on the second run, as the amended theorem shows.) -/
theorem sync_idempotent_counterexample :
    (¬ ∃ t, (get_all_metadata ((sync_now (fun _ => []) []
        [⟨"f1".data, "n1".data, "t1".data, "pdf".data⟩]).store)).lookup
        "f1".data = some t) ∧
    (sync_now (fun _ => [])
      ((sync_now (fun _ => [])
        [] [⟨"f1".data, "n1".data, "t1".data, "pdf".data⟩]).store)
      [⟨"f1".data, "n1".data, "t1".data, "pdf".data⟩]).muts = [] := by
  constructor
  · rintro ⟨t, ht⟩
    have hn : (get_all_metadata ((sync_now (fun _ => []) []
        [⟨"f1".data, "n1".data, "t1".data, "pdf".data⟩]).store)).lookup
        "f1".data = none := by decide
    rw [hn] at ht
    cases ht
  · decide

/-- Witness for C3's amended theorem at a concrete store and listing. -/
theorem sync_idempotent_witness :
    goodStore [⟨"c".data, [1], some ⟨"f1".data, "n1".data, "t1".data⟩⟩] ∧
    sync_now (fun _ => [("c2".data, [2])])
      ((sync_now (fun _ => [("c2".data, [2])])
        [⟨"c".data, [1], some ⟨"f1".data, "n1".data, "t1".data⟩⟩]
        [⟨"f1".data, "n1".data, "t2".data, "pdf".data⟩]).store)
      [⟨"f1".data, "n1".data, "t2".data, "pdf".data⟩] =
      { store := (sync_now (fun _ => [("c2".data, [2])])
          [⟨"c".data, [1], some ⟨"f1".data, "n1".data, "t1".data⟩⟩]
          [⟨"f1".data, "n1".data, "t2".data, "pdf".data⟩]).store,
        muts := [] } :=
  ⟨by decide,
    sync_idempotent (fun _ => [("c2".data, [2])])
      [⟨"c".data, [1], some ⟨"f1".data, "n1".data, "t1".data⟩⟩]
      [⟨"f1".data, "n1".data, "t2".data, "pdf".data⟩]
      (by decide) (by decide) (by decide)⟩
